import Mathlib

/-
Verification development for the SymSpell C99 engine (symspell.c).

Modelling conventions (shallow embedding):
- C strings are `List Char`; `uint64_t` frequencies and hashes are `ℕ`
  (hash values are abstracted by a parameter `h : List Char → ℕ`, standing
  for xxh3, which the spec treats as an external primitive).
- The open-addressed tables are modelled as functions from slot index to
  content, updated with `Function.update`; probing loops carry an explicit
  fuel equal to the table size, exactly mirroring the C `for (probe = 0;
  probe < table_size; probe++)` loops.
- `float` probability arithmetic is modelled exactly over `ℚ`; `iwf`
  values live in `ℝ` because they involve a logarithm.  The C code stores
  `iwf[i] = calculate_iwf(probabilities[i])` in the end-of-load sweep and
  never writes the array elsewhere, so the iwf array is modelled by that
  defining equation (`em_iwf`).
- Heap allocation (`calloc`/`malloc`/`realloc`) is assumed to succeed;
  the bump arenas, whose exhaustion behaviour claim C4 is about, are
  modelled separately and faithfully (`arena_alloc`), including the
  `exit(1)` termination, as an explicit `arena_result` outcome.
- File I/O is abstracted: `symspell_load_dictionary` receives the list of
  input lines (the C reads them with `fgets` into a 512-byte buffer).
-/

namespace SymSpell

/- Constants from symspell.c. -/
def SYMSPELL_MAX_EDIT_DISTANCE : ℤ := 3
def SYMSPELL_MAX_TERM_LENGTH : ℕ := 128
def INITIAL_ENTRY_CAPACITY : ℕ := 4
def DELETE_QUEUE_CAPACITY : ℕ := 10000
def MAX_PARTS_PER_LINE : ℕ := 10
def MAX_CANDIDATES_PER_LOOKUP : ℕ := 10000
def TABLE_SIZE_D1 : ℕ := 524287
def TABLE_SIZE_D2 : ℕ := 4194301
def TABLE_SIZE_D3 : ℕ := 33554393
def EXACT_MATCH_TABLE_SIZE : ℕ := 524287

/- Arena allocator (symspell.c, arena_t / arena_alloc).  The C arena holds a
byte buffer; `arena_alloc` itself only bumps the `used` cursor, so the model
keeps `capacity` and `used`.  On overflow the C prints diagnostics and calls
`exit(1)`; that process termination is the `exitProcess` outcome. -/
structure arena_t where
  capacity : ℕ
  used : ℕ
deriving DecidableEq

inductive arena_result where
  | ok (arena : arena_t) (offset : ℕ)
  | exitProcess (code : ℕ)
deriving DecidableEq

/- C: aligned_used = (used + 7) & ~7, i.e. rounding up to a multiple of 8. -/
def arena_align (used : ℕ) : ℕ := (used + 7) / 8 * 8

def arena_alloc (arena : arena_t) (size : ℕ) : arena_result :=
  let aligned_used := arena_align arena.used
  if aligned_used + size > arena.capacity then
    arena_result.exitProcess 1
  else
    arena_result.ok { arena with used := aligned_used + size } aligned_used

/- C `tolower` on ASCII (str_tolower lowercases a string in place). -/
def cToLower (c : Char) : Char :=
  if 'A' ≤ c ∧ c ≤ 'Z' then Char.ofNat (c.toNat + 32) else c

def str_tolower (s : List Char) : List Char := s.map cToLower

/- C `calculate_iwf`: fabsf(-logf(p)) for p > 0, else 99.0. -/
noncomputable def calculate_iwf (probability : ℚ) : ℝ :=
  if probability > 0 then |(-Real.log (probability : ℝ))| else 99

/- Delete enumerator (_generate_all_deletes_reuse).  The C keeps a FIFO queue
of (string, distance) items of capacity DELETE_QUEUE_CAPACITY, a transient
hash set for uniqueness, and an output buffer of capacity `max_deletes`.
The model carries the live queue segment `pending` (= queue[queue_start ..
queue_end)), the total number ever enqueued `enqueued` (= queue_end), the
uniqueness set `seen` and the emitted list `outList` (= deletes_out).  The
loop fuel DELETE_QUEUE_CAPACITY is exact: queue_start increases by one per
iteration and is bounded by queue_end ≤ DELETE_QUEUE_CAPACITY, so the C loop
runs at most DELETE_QUEUE_CAPACITY iterations. -/
structure queue_item_t where
  str : List Char
  distance : ℕ

structure GenState where
  outList : List (List Char)
  seen : List (List Char)
  pending : List queue_item_t
  enqueued : ℕ

/- Body of the `for (i = 0; i < cur_len; i++)` loop for a single position. -/
def gen_process_one (max_deletes : ℕ) (cur : List Char) (dist : ℕ)
    (st : GenState) (i : ℕ) : GenState :=
  let deleted := cur.eraseIdx i
  let st1 :=
    if deleted ∈ st.seen then st
    else if st.outList.length < max_deletes then
      { st with outList := st.outList ++ [deleted], seen := deleted :: st.seen }
    else st
  if st1.enqueued < DELETE_QUEUE_CAPACITY ∧ deleted ∉ st1.pending.map queue_item_t.str then
    { st1 with pending := st1.pending ++ [⟨deleted, dist + 1⟩],
               enqueued := st1.enqueued + 1 }
  else st1

def gen_expand (max_deletes : ℕ) (cur : List Char) (dist : ℕ) (st : GenState) : GenState :=
  (List.range cur.length).foldl (gen_process_one max_deletes cur dist) st

/- The `while (queue_start < queue_end && delete_count < max_deletes)` loop. -/
def gen_loop (max_distance : ℤ) (max_deletes : ℕ) : ℕ → GenState → GenState
  | 0, st => st
  | fuel + 1, st =>
    match st.pending with
    | [] => st
    | item :: rest =>
      if st.outList.length < max_deletes then
        let st' : GenState := { st with pending := rest }
        if (item.distance : ℤ) ≥ max_distance ∨ item.str.length ≤ 1 then
          gen_loop max_distance max_deletes fuel st'
        else
          gen_loop max_distance max_deletes fuel
            (gen_expand max_deletes item.str item.distance st')
      else st

/- The prefix buffer: snprintf(prefix, 128, "%.*s", min(word_len, P), word).
A negative precision makes snprintf copy the whole string; the 128-byte
buffer clips the copy to 127 characters. -/
def c_pfx (word : List Char) (prefix_length : ℤ) : List Char :=
  let prec : ℤ := if (word.length : ℤ) > prefix_length then prefix_length else (word.length : ℤ)
  (if prec < 0 then word else word.take prec.toNat).take (SYMSPELL_MAX_TERM_LENGTH - 1)

/- The pre-loop seeding: conditionally emit "" (prefix_len ≤ max_distance
and room in the output), then the prefix if not already in the set, then
seed the queue with (prefix, 0). -/
def gen_seed (pfx : List Char) (max_distance : ℤ) (max_deletes : ℕ) : GenState :=
  let st0 : GenState := { outList := [], seen := [], pending := [], enqueued := 0 }
  let st1 :=
    if (pfx.length : ℤ) ≤ max_distance ∧ 0 < max_deletes then
      { st0 with outList := st0.outList ++ [[]], seen := [] :: st0.seen }
    else st0
  let st2 :=
    if st1.outList.length < max_deletes ∧ pfx ∉ st1.seen then
      { st1 with outList := st1.outList ++ [pfx], seen := pfx :: st1.seen }
    else st1
  { st2 with pending := [⟨pfx, 0⟩], enqueued := 1 }

def generate_all_deletes_reuse (word : List Char) (max_distance : ℤ)
    (prefix_length : ℤ) (max_deletes : ℕ) : List (List Char) :=
  if word.length = 0 then []
  else
    (gen_loop max_distance max_deletes DELETE_QUEUE_CAPACITY
      (gen_seed (c_pfx word prefix_length) max_distance max_deletes)).outList

/- Exact-match table (exact_match_table_t): parallel arrays hashes[],
frequencies[], probabilities[], iwf[] indexed by slot; hash 0 marks an empty
slot.  The iwf array is only written by the end-of-load sweep, as
iwf[i] = calculate_iwf(probabilities[i]); it is therefore modelled by the
derived function `em_iwf` below instead of a fourth array. -/
structure exact_match_table_t where
  hashes : ℕ → ℕ
  frequencies : ℕ → ℕ
  probabilities : ℕ → ℚ
  table_size : ℕ

noncomputable def em_iwf (t : exact_match_table_t) (pos : ℕ) : ℝ :=
  calculate_iwf (t.probabilities pos)

/- The probe position of step j for a given hash: the C computes
idx = hash % table_size once and then probes (idx + probe) % table_size. -/
def em_slot (t : exact_match_table_t) (k j : ℕ) : ℕ :=
  (k % t.table_size + j) % t.table_size

/- The shared linear-probe loop of symspell_lookup's fast path,
symspell_get_probability and symspell_get_iwf: an empty slot (hash 0) means
a miss, a matching hash yields the slot. -/
def em_find_pos_aux (t : exact_match_table_t) (query_hash : ℕ) :
    ℕ → ℕ → Option ℕ
  | _, 0 => none
  | j, fuel + 1 =>
    if t.hashes (em_slot t query_hash j) = 0 then none
    else if t.hashes (em_slot t query_hash j) = query_hash then some (em_slot t query_hash j)
    else em_find_pos_aux t query_hash (j + 1) fuel

def em_find_pos (t : exact_match_table_t) (query_hash : ℕ) : Option ℕ :=
  em_find_pos_aux t query_hash 0 t.table_size

/- C add_exact_match: same probe; an empty slot records (hash, freq), a
matching hash keeps the larger frequency.  Returns the updated table and the
C bool (false only when the whole table was probed without a slot). -/
def add_exact_match_aux (t : exact_match_table_t) (word_hash freq : ℕ) :
    ℕ → ℕ → exact_match_table_t × Bool
  | _, 0 => (t, false)
  | j, fuel + 1 =>
    if t.hashes (em_slot t word_hash j) = 0 then
      ({ t with hashes := Function.update t.hashes (em_slot t word_hash j) word_hash,
                frequencies := Function.update t.frequencies (em_slot t word_hash j) freq }, true)
    else if t.hashes (em_slot t word_hash j) = word_hash then
      ({ t with frequencies := Function.update t.frequencies (em_slot t word_hash j)
                  (if freq > t.frequencies (em_slot t word_hash j) then freq
                   else t.frequencies (em_slot t word_hash j)) }, true)
    else add_exact_match_aux t word_hash freq (j + 1) fuel

def add_exact_match (t : exact_match_table_t) (word_hash freq : ℕ) :
    exact_match_table_t × Bool :=
  add_exact_match_aux t word_hash freq 0 t.table_size

/- Delete-index entry (delete_entry_t): the words[]/frequencies[] parallel
arrays become a list of pairs in insertion order (the capacity-doubling
realloc is an allocation detail with no observable effect). -/
structure delete_entry_t where
  delete_str : List Char
  pairs : List (List Char × ℕ)
deriving DecidableEq

/- C add_to_entry: linear scan for the word; on a hit keep the larger
frequency, otherwise append the (word, freq) pair. -/
def add_to_entry_pairs (word : List Char) (freq : ℕ) :
    List (List Char × ℕ) → List (List Char × ℕ)
  | [] => [(word, freq)]
  | (w, f) :: rest =>
    if w = word then (w, if freq > f then freq else f) :: rest
    else (w, f) :: add_to_entry_pairs word freq rest

def add_to_entry (e : delete_entry_t) (word : List Char) (freq : ℕ) : delete_entry_t :=
  { e with pairs := add_to_entry_pairs word freq e.pairs }

/- The dictionary (struct symspell_dict).  The lookup mutex, scratch buffers
and arenas are resource-management details; delete_buffer_capacity is kept
because it caps the number of deletes generated per word. -/
structure symspell_dict_t where
  table : ℕ → Option delete_entry_t
  table_size : ℕ
  exact_table : exact_match_table_t
  max_edit_distance : ℕ
  prefix_length : ℤ
  word_count : ℕ
  entry_count : ℕ
  delete_buffer_capacity : ℕ

/- The delete-index probe position: the C probes idx = (hash + i) % table_size
(without reducing the hash first — unlike the exact table). -/
def dt_slot (table_size hashv j : ℕ) : ℕ := (hashv + j) % table_size

/- C add_delete: probe (hash + i) % table_size; an empty slot gets a fresh
entry (entry_count++), a slot whose entry has the same delete string is
updated via add_to_entry, otherwise keep probing.  A full table makes the C
return false, which generate_deletes ignores; the model returns the
dictionary unchanged in that case. -/
def add_delete_aux (dict : symspell_dict_t) (delete_str word : List Char)
    (freq hashv : ℕ) : ℕ → ℕ → symspell_dict_t
  | _, 0 => dict
  | j, fuel + 1 =>
    match dict.table (dt_slot dict.table_size hashv j) with
    | none =>
      { dict with
          table := Function.update dict.table (dt_slot dict.table_size hashv j)
            (some ⟨delete_str, [(word, freq)]⟩),
          entry_count := dict.entry_count + 1 }
    | some e =>
      if e.delete_str = delete_str then
        { dict with
            table := Function.update dict.table (dt_slot dict.table_size hashv j)
              (some (add_to_entry e word freq)) }
      else add_delete_aux dict delete_str word freq hashv (j + 1) fuel

def add_delete (h : List Char → ℕ) (dict : symspell_dict_t)
    (delete_str word : List Char) (freq : ℕ) : symspell_dict_t :=
  add_delete_aux dict delete_str word freq (h delete_str) 0 dict.table_size

/- C generate_deletes: enumerate the word's deletes into the work buffer and
add each one to the delete index. -/
def dels_of (dict : symspell_dict_t) (word : List Char) : List (List Char) :=
  generate_all_deletes_reuse word (dict.max_edit_distance : ℤ) dict.prefix_length
    dict.delete_buffer_capacity

def generate_deletes (h : List Char → ℕ) (dict : symspell_dict_t)
    (word : List Char) (freq : ℕ) : symspell_dict_t :=
  (dels_of dict word).foldl (fun d ds => add_delete h d ds word freq) dict

/- C symspell_create.  Rejects max_edit_distance outside 1..3; the prefix
length is stored without validation.  (The calloc failure paths return NULL
too; allocation is assumed to succeed here, so the model returns none exactly
on the configuration check.) -/
def symspell_create (max_edit_distance prefix_length : ℤ) : Option symspell_dict_t :=
  if max_edit_distance < 1 ∨ max_edit_distance > SYMSPELL_MAX_EDIT_DISTANCE then none
  else
    some
      { table := fun _ => none,
        table_size :=
          if max_edit_distance = 1 then TABLE_SIZE_D1
          else if max_edit_distance = 2 then TABLE_SIZE_D2
          else TABLE_SIZE_D3,
        exact_table :=
          { hashes := fun _ => 0, frequencies := fun _ => 0,
            probabilities := fun _ => 0, table_size := EXACT_MATCH_TABLE_SIZE },
        max_edit_distance := max_edit_distance.toNat,
        prefix_length := prefix_length,
        word_count := 0,
        entry_count := 0,
        delete_buffer_capacity := DELETE_QUEUE_CAPACITY }

/- Line parsing inside symspell_load_dictionary.  The C truncates the line at
the first CR/LF (strcspn), skips empty lines, splits on spaces and tabs with
strtok collecting at most MAX_PARTS_PER_LINE fields, skips lines with too few
fields, and reads the frequency with strtoull (leading decimal digits; a
missing or zero value is coerced to 1). -/
def tokenize (l : List Char) : List (List Char) :=
  (l.splitOnP (fun c => c == ' ' || c == '\t')).filter (fun t => !t.isEmpty)

def parse_count (s : List Char) : ℕ :=
  (s.takeWhile Char.isDigit).foldl (fun a c => a * 10 + (c.toNat - 48)) 0

def strip_crlf (l : List Char) : List Char :=
  l.takeWhile (fun c => c ≠ '\r' ∧ c ≠ '\n')

def parse_line (line : List Char) (term_index count_index : ℕ) :
    Option (List Char × ℕ) :=
  let stripped := strip_crlf line
  if stripped.length = 0 then none
  else
    let parts := (tokenize stripped).take MAX_PARTS_PER_LINE
    if parts.length ≤ term_index ∨ parts.length ≤ count_index then none
    else
      let freq := parse_count (parts.getD count_index [])
      some (parts.getD term_index [], if freq = 0 then 1 else freq)

/- One admitted (term, freq) pair: lowercase the term, add it to the exact
table and the delete index, and bump word_count — exactly the body of the
load loop after parsing. -/
def ingest_pair (h : List Char → ℕ) (dict : symspell_dict_t)
    (term : List Char) (freq : ℕ) : symspell_dict_t :=
  let lterm := str_tolower term
  let dict1 := { dict with exact_table := (add_exact_match dict.exact_table (h lterm) freq).1 }
  let dict2 := generate_deletes h dict1 lterm freq
  { dict2 with word_count := dict2.word_count + 1 }

/- The load loop state is (dictionary, max_freq); the C sets max_freq only
once, from the first admitted line: `if (!max_freq) max_freq = freq;`. -/
def load_step (h : List Char → ℕ) (term_index count_index : ℕ)
    (acc : symspell_dict_t × ℕ) (line : List Char) : symspell_dict_t × ℕ :=
  match parse_line line term_index count_index with
  | none => acc
  | some (term, freq) =>
    (ingest_pair h acc.1 term freq, if acc.2 = 0 then freq else acc.2)

def load_fold (h : List Char → ℕ) (dict : symspell_dict_t)
    (lines : List (List Char)) (term_index count_index : ℕ) :
    symspell_dict_t × ℕ :=
  lines.foldl (load_step h term_index count_index) (dict, 0)

/- The end-of-load sweep: for every inhabited slot set
probability = frequency / max_freq (and iwf = calculate_iwf(probability),
which `em_iwf` captures).  The exact rational frequency / max_freq is
written as mkRat, which equals the cast division (rat_div_eq_mkRat below). -/
def probability_sweep (t : exact_match_table_t) (max_freq : ℕ) : exact_match_table_t :=
  { t with probabilities := fun pos =>
      if pos < t.table_size ∧ t.hashes pos ≠ 0 then
        mkRat (t.frequencies pos) max_freq
      else t.probabilities pos }

def symspell_load_dictionary (h : List Char → ℕ) (dict : symspell_dict_t)
    (lines : List (List Char)) (term_index count_index : ℕ) : symspell_dict_t :=
  let dm := load_fold h dict lines term_index count_index
  { dm.1 with exact_table := probability_sweep dm.1.exact_table dm.2 }

/- Damerau–Levenshtein distance (C edit_distance).  Row i is built from rows
i−1 and i−2 (for the adjacent-transposition case); after each row the C
returns max_distance + 1 when the row minimum exceeds max_distance. -/
def ed_build_row (s1 s2 : List Char) (i : ℕ) (prevPrev prev : List ℕ) : List ℕ :=
  (List.range (s2.length + 1)).foldl
    (fun cur j =>
      if j = 0 then cur ++ [i]
      else
        let cost := if s1.getD (i - 1) ' ' = s2.getD (j - 1) ' ' then 0 else 1
        let delete_cost := prev.getD j 0 + 1
        let insert_cost := cur.getD (j - 1) 0 + 1
        let subst_cost := prev.getD (j - 1) 0 + cost
        let best0 := if delete_cost < insert_cost then delete_cost else insert_cost
        let best1 := if subst_cost < best0 then subst_cost else best0
        let best2 :=
          if 1 < i ∧ 1 < j ∧ s1.getD (i - 1) ' ' = s2.getD (j - 2) ' ' ∧
              s1.getD (i - 2) ' ' = s2.getD (j - 1) ' ' then
            if prevPrev.getD (j - 2) 0 + 1 < best1 then prevPrev.getD (j - 2) 0 + 1 else best1
          else best1
        cur ++ [best2])
    []

def ed_rows (s1 s2 : List Char) (max_distance : ℤ) :
    ℕ → List ℕ → List ℕ → ℕ → ℤ
  | _, _, prev, 0 => (prev.getD s2.length 0 : ℤ)
  | i, prevPrev, prev, fuel + 1 =>
    let row := ed_build_row s1 s2 i prevPrev prev
    let min_in_row := row.foldl Nat.min (row.getD 0 0)
    if (min_in_row : ℤ) > max_distance then max_distance + 1
    else ed_rows s1 s2 max_distance (i + 1) prev row fuel

def edit_distance (s1 s2 : List Char) (max_distance : ℤ) : ℤ :=
  if SYMSPELL_MAX_TERM_LENGTH ≤ s1.length ∨ SYMSPELL_MAX_TERM_LENGTH ≤ s2.length then
    max_distance + 1
  else if |(s1.length : ℤ) - (s2.length : ℤ)| > max_distance then max_distance + 1
  else ed_rows s1 s2 max_distance 1 [] (List.range (s2.length + 1)) s1.length

/- Suggestions (symspell_suggestion_t).  The iwf field always equals
calculate_iwf(probability) in every suggestion the C hands back (fast path:
both come from the swept table slot; slow path: the C computes it exactly
so), hence it is modelled as the derived value calculate_iwf s.probability
rather than a stored field. -/
structure symspell_suggestion_t where
  term : List Char
  distance : ℤ
  frequency : ℕ
  probability : ℚ
deriving DecidableEq

/- C symspell_get_probability: probe the exact table by hash; 0.0 on miss. -/
def symspell_get_probability (dict : symspell_dict_t) (word_hash : ℕ) : ℚ :=
  match em_find_pos dict.exact_table word_hash with
  | none => 0
  | some pos => dict.exact_table.probabilities pos

/- C symspell_get_iwf: probe by the word's hash; 0.0 on miss, otherwise the
stored iwf (= calculate_iwf of the stored probability, see em_iwf). -/
noncomputable def symspell_get_iwf (h : List Char → ℕ) (dict : symspell_dict_t)
    (word : List Char) : ℝ :=
  match em_find_pos dict.exact_table (h word) with
  | none => 0
  | some pos => em_iwf dict.exact_table pos

/- Slow-path probe of the delete index: `if (!table[idx]) break;` then
string-compare; the matching entry is processed and the probe loop breaks. -/
def lookup_probe_entry (dict : symspell_dict_t) (delete_str : List Char)
    (hashv : ℕ) : ℕ → ℕ → Option delete_entry_t
  | _, 0 => none
  | j, fuel + 1 =>
    match dict.table (dt_slot dict.table_size hashv j) with
    | none => none
    | some e =>
      if e.delete_str = delete_str then some e
      else lookup_probe_entry dict delete_str hashv (j + 1) fuel

/- Candidate collection over one matched entry: for each listed word (while
the candidate buffer has room) compute the bounded edit distance, keep it if
within budget and not already collected.  The probability field is filled in
only for the finally selected suggestion (the C leaves it unset here), so the
placeholder 0 is never observable. -/
def collect_candidates (query : List Char) (max_edit_distance : ℤ)
    (e : delete_entry_t) (cands : List symspell_suggestion_t) :
    List symspell_suggestion_t :=
  e.pairs.foldl
    (fun cs wf =>
      if cs.length < MAX_CANDIDATES_PER_LOOKUP then
        let dist := edit_distance query wf.1 max_edit_distance
        if dist ≤ max_edit_distance then
          if wf.1 ∈ cs.map symspell_suggestion_t.term then cs
          else cs ++ [⟨wf.1, dist, wf.2, 0⟩]
        else cs
      else cs)
    cands

/- The slow path (default build, no DO_SORT): enumerate the query's deletes,
gather candidates from the delete index, then a single pass keeps the best
candidate (smaller distance, then larger frequency), whose probability is
re-read from the exact table. -/
def slow_path (h : List Char → ℕ) (dict : symspell_dict_t) (query : List Char)
    (max_edit_distance : ℤ) : List symspell_suggestion_t :=
  let dels := generate_all_deletes_reuse query max_edit_distance dict.prefix_length
    dict.delete_buffer_capacity
  let cands := dels.foldl
    (fun cs ds =>
      match lookup_probe_entry dict ds (h ds) 0 dict.table_size with
      | none => cs
      | some e => collect_candidates query max_edit_distance e cs)
    []
  match cands with
  | [] => []
  | c0 :: rest =>
    let best := rest.foldl
      (fun b c =>
        if c.distance < b.distance then c
        else if c.distance = b.distance ∧ c.frequency > b.frequency then c
        else b)
      c0
    [{ best with probability := symspell_get_probability dict (h best.term) }]

/- C symspell_lookup (default build).  The query is copied with
strncpy(query, term, 127) and lowercased; the fast path probes the exact
table and returns a single distance-0 suggestion on a hit; otherwise the
requested distance is clamped to the dictionary's and forced to 1 for
queries of length ≤ 4, and the slow path runs.  A non-positive
max_suggestions returns no suggestions. -/
def symspell_lookup (h : List Char → ℕ) (dict : symspell_dict_t)
    (term : List Char) (max_edit_distance_lookup max_suggestions : ℤ) :
    List symspell_suggestion_t :=
  if max_suggestions ≤ 0 then []
  else
    let query := str_tolower (term.take (SYMSPELL_MAX_TERM_LENGTH - 1))
    match em_find_pos dict.exact_table (h query) with
    | some pos =>
      [{ term := query, distance := 0,
         frequency := dict.exact_table.frequencies pos,
         probability := dict.exact_table.probabilities pos }]
    | none =>
      let clamped : ℤ :=
        if max_edit_distance_lookup < (dict.max_edit_distance : ℤ) then
          max_edit_distance_lookup
        else (dict.max_edit_distance : ℤ)
      let effective : ℤ := if query.length ≤ 4 then 1 else clamped
      slow_path h dict query effective

/- C symspell_get_stats. -/
def symspell_get_stats (dict : symspell_dict_t) : ℕ × ℕ :=
  (dict.word_count, dict.entry_count)

/- A concrete stand-in for xxh3, used only to instantiate the hash parameter
in witnesses and counterexamples: a simple polynomial string hash that is
never 0 (it starts from 7 and only grows). -/
def demo_hash (s : List Char) : ℕ :=
  s.foldl (fun a c => a * 131 + c.toNat + 1) 7

def demo_dict_default : symspell_dict_t :=
  { table := fun _ => none, table_size := 0,
    exact_table := { hashes := fun _ => 0, frequencies := fun _ => 0,
                     probabilities := fun _ => 0, table_size := 0 },
    max_edit_distance := 0, prefix_length := 0, word_count := 0,
    entry_count := 0, delete_buffer_capacity := 0 }

/- The dictionary produced by symspell_create(2, 7). -/
def demo_dict : symspell_dict_t := (symspell_create 2 7).getD demo_dict_default

/- The mkRat in probability_sweep is exactly the mathematical division
frequency / max_freq. -/
theorem rat_mkRat_eq_div (a b : ℕ) : mkRat a b = (a : ℚ) / (b : ℚ) := by
  rw [Rat.mkRat_eq_div]
  push_cast
  rfl

/- Field-preservation lemmas: add_delete touches only the delete table and
entry_count. -/
theorem add_delete_aux_preserves (dict : symspell_dict_t) (ds w : List Char)
    (freq hashv : ℕ) : ∀ fuel j,
    (add_delete_aux dict ds w freq hashv j fuel).word_count = dict.word_count ∧
    (add_delete_aux dict ds w freq hashv j fuel).exact_table = dict.exact_table ∧
    (add_delete_aux dict ds w freq hashv j fuel).max_edit_distance = dict.max_edit_distance ∧
    (add_delete_aux dict ds w freq hashv j fuel).prefix_length = dict.prefix_length ∧
    (add_delete_aux dict ds w freq hashv j fuel).delete_buffer_capacity = dict.delete_buffer_capacity ∧
    (add_delete_aux dict ds w freq hashv j fuel).table_size = dict.table_size := by
  intro fuel
  induction fuel with
  | zero => intro j; exact ⟨rfl, rfl, rfl, rfl, rfl, rfl⟩
  | succ n ih =>
    intro j
    rw [add_delete_aux]
    split
    · exact ⟨rfl, rfl, rfl, rfl, rfl, rfl⟩
    · split
      · exact ⟨rfl, rfl, rfl, rfl, rfl, rfl⟩
      · exact ih (j + 1)

theorem add_delete_preserves (h : List Char → ℕ) (dict : symspell_dict_t)
    (ds w : List Char) (freq : ℕ) :
    (add_delete h dict ds w freq).word_count = dict.word_count ∧
    (add_delete h dict ds w freq).exact_table = dict.exact_table ∧
    (add_delete h dict ds w freq).max_edit_distance = dict.max_edit_distance ∧
    (add_delete h dict ds w freq).prefix_length = dict.prefix_length ∧
    (add_delete h dict ds w freq).delete_buffer_capacity = dict.delete_buffer_capacity ∧
    (add_delete h dict ds w freq).table_size = dict.table_size :=
  add_delete_aux_preserves dict ds w freq (h ds) dict.table_size 0

theorem foldl_add_delete_preserves (h : List Char → ℕ) (w : List Char) (freq : ℕ) :
    ∀ (dels : List (List Char)) (dict : symspell_dict_t),
    (dels.foldl (fun d ds => add_delete h d ds w freq) dict).word_count = dict.word_count ∧
    (dels.foldl (fun d ds => add_delete h d ds w freq) dict).exact_table = dict.exact_table ∧
    (dels.foldl (fun d ds => add_delete h d ds w freq) dict).max_edit_distance = dict.max_edit_distance ∧
    (dels.foldl (fun d ds => add_delete h d ds w freq) dict).prefix_length = dict.prefix_length ∧
    (dels.foldl (fun d ds => add_delete h d ds w freq) dict).delete_buffer_capacity = dict.delete_buffer_capacity ∧
    (dels.foldl (fun d ds => add_delete h d ds w freq) dict).table_size = dict.table_size := by
  intro dels
  induction dels with
  | nil => intro dict; exact ⟨rfl, rfl, rfl, rfl, rfl, rfl⟩
  | cons d0 rest ih =>
    intro dict
    have h1 := add_delete_preserves h dict d0 w freq
    have h2 := ih (add_delete h dict d0 w freq)
    simp only [List.foldl_cons]
    exact ⟨h2.1.trans h1.1, h2.2.1.trans h1.2.1, h2.2.2.1.trans h1.2.2.1,
      h2.2.2.2.1.trans h1.2.2.2.1, h2.2.2.2.2.1.trans h1.2.2.2.2.1,
      h2.2.2.2.2.2.trans h1.2.2.2.2.2⟩

theorem generate_deletes_preserves (h : List Char → ℕ) (dict : symspell_dict_t)
    (w : List Char) (freq : ℕ) :
    (generate_deletes h dict w freq).word_count = dict.word_count ∧
    (generate_deletes h dict w freq).exact_table = dict.exact_table ∧
    (generate_deletes h dict w freq).max_edit_distance = dict.max_edit_distance ∧
    (generate_deletes h dict w freq).prefix_length = dict.prefix_length ∧
    (generate_deletes h dict w freq).delete_buffer_capacity = dict.delete_buffer_capacity ∧
    (generate_deletes h dict w freq).table_size = dict.table_size :=
  foldl_add_delete_preserves h w freq (dels_of dict w) dict

theorem ingest_pair_word_count (h : List Char → ℕ) (dict : symspell_dict_t)
    (term : List Char) (freq : ℕ) :
    (ingest_pair h dict term freq).word_count = dict.word_count + 1 := by
  unfold ingest_pair
  have := (generate_deletes_preserves h
    { dict with exact_table := (add_exact_match dict.exact_table (h (str_tolower term)) freq).1 }
    (str_tolower term) freq).1
  simp only [this]

theorem load_fold_word_count (h : List Char → ℕ) (ti ci : ℕ) :
    ∀ (lines : List (List Char)) (dict : symspell_dict_t) (mf : ℕ),
    (lines.foldl (load_step h ti ci) (dict, mf)).1.word_count =
      dict.word_count + lines.countP (fun l => (parse_line l ti ci).isSome) := by
  intro lines
  induction lines with
  | nil => intro dict mf; simp
  | cons l rest ih =>
    intro dict mf
    simp only [List.foldl_cons, List.countP_cons]
    cases hp : parse_line l ti ci with
    | none =>
      simp [load_step, hp, ih]
    | some tf =>
      simp [load_step, hp, ih, ingest_pair_word_count]
      omega

/-- C1: the load loop sets its reference frequency only from the FIRST
admitted line (`if (!max_freq) max_freq = freq;`), not from the maximum over
all admitted words.  Loading "a 1" then "b 2" therefore stores
probability("b") = 2/1 = 2, whereas frequency("b")/max_frequency = 2/2 = 1:
the claimed normalization by the maximum frequency does not hold. -/
theorem c1_probability_uses_first_admitted_frequency :
    symspell_get_probability
        (symspell_load_dictionary demo_hash demo_dict ["a 1".data, "b 2".data] 0 1)
        (demo_hash (str_tolower "b".data)) = 2 ∧
    ¬ symspell_get_probability
        (symspell_load_dictionary demo_hash demo_dict ["a 1".data, "b 2".data] 0 1)
        (demo_hash (str_tolower "b".data)) = mkRat 2 2 ∧
    (load_fold demo_hash demo_dict ["a 1".data, "b 2".data] 0 1).2 = 1 := by
  refine ⟨by decide, by decide, by decide⟩

/-- C3 counterexample: symspell_create performs no validation of the prefix
length at all; even the (invalid, negative) prefix length −1 yields a
dictionary instead of a configuration error. -/
theorem c3_counterexample_invalid_pfx_len_accepted :
    (symspell_create 2 (-1)).isSome = true := by decide

/-- C3 amended: symspell_create fails exactly when max_edit_distance lies
outside 1..3; the prefix length argument is never validated (any value,
including 0 and negatives, is accepted). -/
theorem c3_amended_create_validates_only_distance (d p : ℤ) :
    (symspell_create d p).isSome ↔ 1 ≤ d ∧ d ≤ 3 := by
  unfold symspell_create SYMSPELL_MAX_EDIT_DISTANCE
  split
  · simpa using by omega
  · simpa using by omega

/-- C4 counterexample: an arena allocation that does not fit makes
arena_alloc terminate the process with exit(1) (the exitProcess outcome);
no error result is returned for symspell_load_dictionary to hand back. -/
theorem c4_counterexample_arena_overflow_exits :
    arena_alloc ⟨8, 5⟩ 16 = arena_result.exitProcess 1 := by decide

/-- C4 amended: whenever an allocation request does not fit in the arena
(aligned used cursor plus size exceeds capacity), arena_alloc exits the
process with code 1 instead of surfacing a load error to the caller. -/
theorem c4_amended_arena_overflow_exit1 (arena : arena_t) (size : ℕ)
    (hov : arena.capacity < arena_align arena.used + size) :
    arena_alloc arena size = arena_result.exitProcess 1 := by
  unfold arena_alloc
  rw [if_pos]
  omega

/-- Witness for c4_amended_arena_overflow_exit1 at the concrete arena
(capacity 4, used 0) and size 8. -/
theorem c4_witness : arena_alloc ⟨4, 0⟩ 8 = arena_result.exitProcess 1 :=
  c4_amended_arena_overflow_exit1 ⟨4, 0⟩ 8 (by decide)

/-- C6: when the lowercased (127-byte-truncated) query has length at most 4
and misses the exact-match fast path, symspell_lookup runs the slow path
with an effective maximum edit distance of exactly 1, whatever distance the
caller requested and whatever the dictionary's configured maximum is. -/
theorem c6_short_query_forces_distance_one (h : List Char → ℕ)
    (dict : symspell_dict_t) (term : List Char)
    (max_edit_distance_lookup max_suggestions : ℤ)
    (hpos : 0 < max_suggestions)
    (hshort : (str_tolower (term.take (SYMSPELL_MAX_TERM_LENGTH - 1))).length ≤ 4)
    (hmiss : em_find_pos dict.exact_table
      (h (str_tolower (term.take (SYMSPELL_MAX_TERM_LENGTH - 1)))) = none) :
    symspell_lookup h dict term max_edit_distance_lookup max_suggestions =
      slow_path h dict (str_tolower (term.take (SYMSPELL_MAX_TERM_LENGTH - 1))) 1 := by
  unfold symspell_lookup
  rw [if_neg (by omega)]
  simp only [hmiss, if_pos hshort]

/-- Witness for c6_short_query_forces_distance_one: the fresh dictionary and
the 4-letter query "abcd", with requested distance 0. -/
theorem c6_witness :
    symspell_lookup demo_hash demo_dict "abcd".data 0 10 =
      slow_path demo_hash demo_dict
        (str_tolower ("abcd".data.take (SYMSPELL_MAX_TERM_LENGTH - 1))) 1 :=
  c6_short_query_forces_distance_one demo_hash demo_dict "abcd".data 0 10
    (by decide) (by decide) (by decide)

/-- C8 counterexample: the loader has no handling of comment lines.  The
line "# 7" has '#' as its first non-space character, yet loading it (term
column 0, count column 1) admits the word "#": word_count becomes 1 and "#"
is stored in the exact-match table (probability 1). -/
theorem c8_counterexample_comment_line_admitted :
    ("# 7".data.dropWhile (fun c => c = ' ')).head? = some '#' ∧
    (symspell_load_dictionary demo_hash demo_dict ["# 7".data] 0 1).word_count = 1 ∧
    symspell_get_probability (symspell_load_dictionary demo_hash demo_dict ["# 7".data] 0 1)
      (demo_hash "#".data) = 1 := by
  refine ⟨by decide, by decide, by decide⟩

/-- C8 amended: every line without any whitespace-separated token (in
particular every blank line) is skipped by the loader; comment lines are NOT
recognized: any line with enough fields is admitted like an ordinary entry,
regardless of a leading '#'. -/
theorem c8_amended_blank_skipped_comment_processed :
    (∀ (l : List Char) (ti ci : ℕ), tokenize (strip_crlf l) = [] →
      parse_line l ti ci = none) ∧
    (∀ (l : List Char) (ti ci : ℕ),
      ti < ((tokenize (strip_crlf l)).take MAX_PARTS_PER_LINE).length →
      ci < ((tokenize (strip_crlf l)).take MAX_PARTS_PER_LINE).length →
      (parse_line l ti ci).isSome = true) := by
  constructor
  · intro l ti ci htok
    unfold parse_line
    dsimp only
    split
    · rfl
    · simp [htok]
  · intro l ti ci hti hci
    unfold parse_line
    dsimp only
    split
    · next hlen =>
      exfalso
      have hnil : strip_crlf l = [] := List.length_eq_zero.mp hlen
      rw [hnil] at hti
      simp [tokenize] at hti
    · rw [if_neg (by omega)]
      rfl

/-- Witness for c8_amended_blank_skipped_comment_processed: the empty line
is skipped, while the comment line "# 7" (2 fields, columns 0 and 1) is
admitted. -/
theorem c8_witness :
    parse_line [] 0 1 = none ∧ (parse_line "# 7".data 0 1).isSome = true :=
  ⟨c8_amended_blank_skipped_comment_processed.1 [] 0 1 (by decide),
   c8_amended_blank_skipped_comment_processed.2 "# 7".data 0 1 (by decide) (by decide)⟩

/- Delete-enumerator structure lemmas used by claim C2: every BFS step only
appends to the output list, and everything appended inside the loop is a
single-character deletion of a string of length ≥ 2, hence nonempty. -/
theorem gen_process_one_out (md : ℕ) (cur : List Char) (dist : ℕ)
    (st : GenState) (i : ℕ) :
    (gen_process_one md cur dist st i).outList = st.outList ∨
    (gen_process_one md cur dist st i).outList = st.outList ++ [cur.eraseIdx i] := by
  unfold gen_process_one
  dsimp only
  by_cases h1 : cur.eraseIdx i ∈ st.seen
  · rw [if_pos h1]
    split <;> simp
  · rw [if_neg h1]
    by_cases h2 : st.outList.length < md
    · rw [if_pos h2]
      split <;> simp
    · rw [if_neg h2]
      split <;> simp

theorem gen_fold_idx_out (md : ℕ) (cur : List Char) (dist : ℕ) :
    ∀ (idxs : List ℕ) (st : GenState), ∃ t,
      (idxs.foldl (gen_process_one md cur dist) st).outList = st.outList ++ t ∧
      ∀ y ∈ t, ∃ i ∈ idxs, y = cur.eraseIdx i := by
  intro idxs
  induction idxs with
  | nil => intro st; exact ⟨[], by simp, by simp⟩
  | cons i0 rest ih =>
    intro st
    obtain ⟨t1, ht1, hm1⟩ := ih (gen_process_one md cur dist st i0)
    rcases gen_process_one_out md cur dist st i0 with h0 | h0
    · refine ⟨t1, ?_, ?_⟩
      · rw [List.foldl_cons, ht1, h0]
      · intro y hy
        obtain ⟨i, hi, he⟩ := hm1 y hy
        exact ⟨i, List.mem_cons_of_mem _ hi, he⟩
    · refine ⟨cur.eraseIdx i0 :: t1, ?_, ?_⟩
      · rw [List.foldl_cons, ht1, h0]
        simp
      · intro y hy
        rcases List.mem_cons.mp hy with rfl | hy
        · exact ⟨i0, List.mem_cons_self i0 rest, rfl⟩
        · obtain ⟨i, hi, he⟩ := hm1 y hy
          exact ⟨i, List.mem_cons_of_mem _ hi, he⟩

theorem gen_expand_out (md : ℕ) (cur : List Char) (dist : ℕ) (st : GenState) :
    ∃ t, (gen_expand md cur dist st).outList = st.outList ++ t ∧
      ∀ y ∈ t, ∃ i, i < cur.length ∧ y = cur.eraseIdx i := by
  obtain ⟨t, h1, h2⟩ := gen_fold_idx_out md cur dist (List.range cur.length) st
  refine ⟨t, h1, fun y hy => ?_⟩
  obtain ⟨i, hi, he⟩ := h2 y hy
  exact ⟨i, List.mem_range.mp hi, he⟩

theorem gen_loop_out (D : ℤ) (md : ℕ) : ∀ (fuel : ℕ) (st : GenState), ∃ t,
    (gen_loop D md fuel st).outList = st.outList ++ t ∧ ∀ y ∈ t, y ≠ [] := by
  intro fuel
  induction fuel with
  | zero => intro st; exact ⟨[], by simp [gen_loop], by simp⟩
  | succ n ih =>
    intro st
    rw [gen_loop]
    cases hpend : st.pending with
    | nil => exact ⟨[], by simp, by simp⟩
    | cons item rest =>
      dsimp only
      by_cases hlt : st.outList.length < md
      · rw [if_pos hlt]
        by_cases hg : (item.distance : ℤ) ≥ D ∨ item.str.length ≤ 1
        · rw [if_pos hg]
          obtain ⟨t, h1, h2⟩ := ih { st with pending := rest }
          exact ⟨t, h1, h2⟩
        · rw [if_neg hg]
          push_neg at hg
          obtain ⟨t0, e0, m0⟩ := gen_expand_out md item.str item.distance { st with pending := rest }
          obtain ⟨t1, e1, m1⟩ := ih (gen_expand md item.str item.distance { st with pending := rest })
          refine ⟨t0 ++ t1, ?_, ?_⟩
          · rw [e1, e0]
            simp
          · intro y hy
            rcases List.mem_append.mp hy with hy | hy
            · obtain ⟨i, hi, rfl⟩ := m0 y hy
              have hlen : (item.str.eraseIdx i).length = item.str.length - 1 :=
                List.length_eraseIdx_of_lt hi
              have : 0 < (item.str.eraseIdx i).length := by omega
              exact List.ne_nil_of_length_pos this
            · exact m1 y hy
      · rw [if_neg hlt]
        exact ⟨[], by simp, by simp⟩

/- The seeded output before the loop: "" first (iff prefix_len ≤ D), then
the prefix unless it is already the emitted empty string. -/
theorem gen_seed_out (pfx : List Char) (D : ℤ) (md : ℕ) (hmd : 1 < md) :
    (gen_seed pfx D md).outList =
      if (pfx.length : ℤ) ≤ D then (if pfx = [] then [[]] else [[], pfx])
      else [pfx] := by
  unfold gen_seed
  dsimp only
  by_cases c1 : (pfx.length : ℤ) ≤ D ∧ 0 < md
  · rw [if_pos c1, if_pos c1.1]
    by_cases hp : pfx = []
    · rw [if_neg (by simp [hp]), if_pos hp]
      simp
    · rw [if_pos ⟨by simp; omega, by simp [hp]⟩, if_neg hp]
      simp
  · have hD : ¬ (pfx.length : ℤ) ≤ D := fun hle => c1 ⟨hle, by omega⟩
    rw [if_neg c1, if_neg hD, if_pos ⟨by simp; omega, by simp⟩]
    simp

theorem gen_seed_mem_pfx (pfx : List Char) (D : ℤ) (md : ℕ) (hmd : 1 < md) :
    pfx ∈ (gen_seed pfx D md).outList := by
  rw [gen_seed_out pfx D md hmd]
  split
  · split
    · next hp => simp [hp]
    · simp
  · simp

theorem gen_seed_mem_empty_iff (pfx : List Char) (D : ℤ) (md : ℕ) (hmd : 1 < md) :
    ([] ∈ (gen_seed pfx D md).outList) ↔ ((pfx.length : ℤ) ≤ D ∨ pfx = []) := by
  rw [gen_seed_out pfx D md hmd]
  by_cases h1 : (pfx.length : ℤ) ≤ D
  · rw [if_pos h1]
    by_cases hp : pfx = [] <;> simp [hp, h1]
  · rw [if_neg h1]
    simp [h1, eq_comm]

/- The prefix buffer for a natural prefix length P is the word clipped to
min(P, 127) characters. -/
theorem c_pfx_nat (word : List Char) (P : ℕ) :
    c_pfx word (P : ℤ) = word.take (min P (SYMSPELL_MAX_TERM_LENGTH - 1)) := by
  unfold c_pfx SYMSPELL_MAX_TERM_LENGTH
  dsimp only
  by_cases hgt : (word.length : ℤ) > (P : ℤ)
  · rw [if_pos hgt, if_neg (by omega), Int.toNat_natCast, List.take_take]
    exact List.take_eq_take.mpr (by omega)
  · rw [if_neg hgt, if_neg (by omega), Int.toNat_natCast, List.take_take]
    exact List.take_eq_take.mpr (by omega)

theorem c_pfx_nat_length (word : List Char) (P : ℕ) :
    (c_pfx word (P : ℤ)).length =
      min (min word.length P) (SYMSPELL_MAX_TERM_LENGTH - 1) := by
  rw [c_pfx_nat]
  simp only [List.length_take]
  omega

/-- C2 counterexample: with the word "ab", maximum edit distance D = 2 and
prefix length P = 7 (so P > D), the delete enumerator DOES emit the empty
string — the C compares the effective prefix length min(|word|, P), not P,
against D. -/
theorem c2_counterexample_empty_string_despite_large_p :
    ([] : List Char) ∈ generate_all_deletes_reuse "ab".data 2 7 DELETE_QUEUE_CAPACITY ∧
    (2 : ℤ) < 7 := by
  refine ⟨by decide, by decide⟩

/-- C2 amended: for every nonempty word, the produced set contains the
prefix (the word clipped to its first min(P, 127) bytes, 127 being the
prefix buffer limit), and contains the empty string exactly when the
effective prefix length min(|word|, P, 127) is at most D. -/
theorem c2_amended_delete_set_contains_pfx_and_empty
    (word : List Char) (D P : ℕ) (hw : word ≠ []) :
    word.take (min P (SYMSPELL_MAX_TERM_LENGTH - 1)) ∈
      generate_all_deletes_reuse word (D : ℤ) (P : ℤ) DELETE_QUEUE_CAPACITY ∧
    (([] : List Char) ∈ generate_all_deletes_reuse word (D : ℤ) (P : ℤ) DELETE_QUEUE_CAPACITY ↔
      min (min word.length P) (SYMSPELL_MAX_TERM_LENGTH - 1) ≤ D) := by
  have hmd : 1 < DELETE_QUEUE_CAPACITY := by decide
  unfold generate_all_deletes_reuse
  rw [if_neg (by simpa using hw)]
  obtain ⟨t, hout, hne⟩ := gen_loop_out (D : ℤ) DELETE_QUEUE_CAPACITY DELETE_QUEUE_CAPACITY
    (gen_seed (c_pfx word (P : ℤ)) (D : ℤ) DELETE_QUEUE_CAPACITY)
  rw [hout]
  refine ⟨?_, ?_, ?_⟩
  · rw [← c_pfx_nat]
    exact List.mem_append_left _ (gen_seed_mem_pfx _ _ _ hmd)
  · intro hmem
    rcases List.mem_append.mp hmem with hm | hm
    · rcases (gen_seed_mem_empty_iff _ _ _ hmd).mp hm with hle | hnil
      · rw [c_pfx_nat_length] at hle
        omega
      · rw [c_pfx_nat] at hnil
        have := congrArg List.length hnil
        simp only [List.length_take, List.length_nil] at this
        omega
    · exact absurd rfl (hne [] hm)
  · intro hle
    apply List.mem_append_left
    apply (gen_seed_mem_empty_iff _ _ _ hmd).mpr
    left
    rw [c_pfx_nat_length]
    exact_mod_cast hle

/-- Witness for c2_amended_delete_set_contains_pfx_and_empty at the word
"abc" with D = 2 and P = 7 (effective prefix length 3 > 2, so no empty
string; the prefix "abc" itself is in the set). -/
theorem c2_witness :
    "abc".data.take (min 7 (SYMSPELL_MAX_TERM_LENGTH - 1)) ∈
      generate_all_deletes_reuse "abc".data ((2 : ℕ) : ℤ) ((7 : ℕ) : ℤ) DELETE_QUEUE_CAPACITY ∧
    (([] : List Char) ∈
        generate_all_deletes_reuse "abc".data ((2 : ℕ) : ℤ) ((7 : ℕ) : ℤ) DELETE_QUEUE_CAPACITY ↔
      min (min "abc".data.length 7) (SYMSPELL_MAX_TERM_LENGTH - 1) ≤ 2) :=
  c2_amended_delete_set_contains_pfx_and_empty "abc".data 2 7 (by decide)

/- Exact-match table machinery for claims C5, C7 and C10.  The table
contents are related to an association list of (hash, frequency) pairs whose
merge operation mirrors add_exact_match's keep-the-larger-frequency rule. -/
def insert_max_freq (k f : ℕ) : List (ℕ × ℕ) → List (ℕ × ℕ)
  | [] => [(k, f)]
  | (k', f') :: rest =>
    if k' = k then (k', if f > f' then f else f') :: rest
    else (k', f') :: insert_max_freq k f rest

def alist_get (k : ℕ) : List (ℕ × ℕ) → Option ℕ
  | [] => none
  | (k', f) :: r => if k' = k then some f else alist_get k r

theorem insert_max_freq_append_of_not_mem (k f : ℕ) :
    ∀ (m : List (ℕ × ℕ)), k ∉ m.map Prod.fst → insert_max_freq k f m = m ++ [(k, f)] := by
  intro m
  induction m with
  | nil => intro _; rfl
  | cons p rest ih =>
    intro hk
    obtain ⟨k', f'⟩ := p
    simp only [List.map_cons, List.mem_cons] at hk
    push_neg at hk
    rw [insert_max_freq, if_neg (Ne.symm hk.1), ih hk.2]
    rfl

theorem insert_max_freq_map_fst_of_mem (k f : ℕ) :
    ∀ (m : List (ℕ × ℕ)), k ∈ m.map Prod.fst →
      (insert_max_freq k f m).map Prod.fst = m.map Prod.fst := by
  intro m
  induction m with
  | nil => intro hk; simp at hk
  | cons p rest ih =>
    intro hk
    obtain ⟨k', f'⟩ := p
    by_cases he : k' = k
    · rw [insert_max_freq, if_pos he]
      simp
    · rw [insert_max_freq, if_neg he]
      simp only [List.map_cons, List.mem_cons] at hk
      rcases hk with hk | hk
      · exact absurd hk.symm he
      · simp only [List.map_cons, ih hk]

theorem insert_max_freq_length (k f : ℕ) : ∀ (m : List (ℕ × ℕ)),
    (insert_max_freq k f m).length ≤ m.length + 1 := by
  intro m
  induction m with
  | nil => simp [insert_max_freq]
  | cons p rest ih =>
    obtain ⟨k', f'⟩ := p
    rw [insert_max_freq]
    split
    · simp
    · simpa using ih

/- Membership description of the merge when the key is already present (the
key list must be duplicate-free so that the merged occurrence is unique). -/
theorem insert_max_freq_mem_iff (k f f0 : ℕ) :
    ∀ (m : List (ℕ × ℕ)), (m.map Prod.fst).Nodup → (k, f0) ∈ m →
      ∀ p, p ∈ insert_max_freq k f m ↔
        (p = (k, if f > f0 then f else f0) ∨ (p ∈ m ∧ p.1 ≠ k)) := by
  intro m
  induction m with
  | nil => intro _ hm; simp at hm
  | cons q rest ih =>
    intro hnd hm p
    obtain ⟨k', f'⟩ := q
    simp only [List.map_cons, List.nodup_cons] at hnd
    by_cases he : k' = k
    · subst he
      have hf : f' = f0 := by
        rcases List.mem_cons.mp hm with heq | hmem
        · exact (Prod.ext_iff.mp heq).2.symm
        · exact absurd (List.mem_map_of_mem Prod.fst hmem) hnd.1
      subst hf
      rw [insert_max_freq, if_pos rfl]
      constructor
      · intro hp
        rcases List.mem_cons.mp hp with heq | hmem
        · exact Or.inl heq
        · refine Or.inr ⟨List.mem_cons_of_mem _ hmem, ?_⟩
          intro hpk
          exact hnd.1 (hpk ▸ List.mem_map_of_mem Prod.fst hmem)
      · intro hp
        rcases hp with heq | ⟨hmem, hne⟩
        · exact heq ▸ List.mem_cons_self _ _
        · rcases List.mem_cons.mp hmem with heq | hmem
          · exact absurd (congrArg Prod.fst heq) hne
          · exact List.mem_cons_of_mem _ hmem
    · have hm' : (k, f0) ∈ rest := by
        rcases List.mem_cons.mp hm with heq | hmem
        · exact absurd (congrArg Prod.fst heq).symm he
        · exact hmem
      rw [insert_max_freq, if_neg he]
      rw [List.mem_cons, ih hnd.2 hm' p, List.mem_cons]
      constructor
      · rintro (rfl | hrec | ⟨hmem, hne⟩)
        · exact Or.inr ⟨Or.inl rfl, he⟩
        · exact Or.inl hrec
        · exact Or.inr ⟨Or.inr hmem, hne⟩
      · rintro (hrec | ⟨rfl | hmem, hne⟩)
        · exact Or.inr (Or.inl hrec)
        · exact Or.inl rfl
        · exact Or.inr (Or.inr ⟨hmem, hne⟩)

theorem insert_max_freq_length_of_mem (k f : ℕ) :
    ∀ (m : List (ℕ × ℕ)), k ∈ m.map Prod.fst →
      (insert_max_freq k f m).length = m.length := by
  intro m
  induction m with
  | nil => intro hk; simp at hk
  | cons q rest ih =>
    intro hk
    obtain ⟨k', f'⟩ := q
    by_cases he : k' = k
    · rw [insert_max_freq, if_pos he]
      simp
    · rw [insert_max_freq, if_neg he]
      simp only [List.map_cons, List.mem_cons] at hk
      rcases hk with hk | hk
      · exact absurd hk.symm he
      · simp [ih hk]

theorem alist_get_insert_same (k f : ℕ) : ∀ (m : List (ℕ × ℕ)),
    alist_get k (insert_max_freq k f m) =
      some (match alist_get k m with
            | none => f
            | some f0 => if f > f0 then f else f0) := by
  intro m
  induction m with
  | nil => simp [insert_max_freq, alist_get]
  | cons q rest ih =>
    obtain ⟨k', f'⟩ := q
    by_cases he : k' = k
    · rw [insert_max_freq, if_pos he, alist_get, if_pos he, alist_get, if_pos he]
    · rw [insert_max_freq, if_neg he, alist_get, if_neg he, alist_get, if_neg he, ih]

theorem alist_get_insert_other (k k' f : ℕ) (hne : k' ≠ k) : ∀ (m : List (ℕ × ℕ)),
    alist_get k' (insert_max_freq k f m) = alist_get k' m := by
  intro m
  induction m with
  | nil =>
    simp only [insert_max_freq, alist_get,
      if_neg (show ¬ k = k' from fun he => hne he.symm)]
  | cons q rest ih =>
    obtain ⟨k'', f''⟩ := q
    by_cases he : k'' = k
    · rw [insert_max_freq, if_pos he, alist_get,
          if_neg (show ¬ k'' = k' from fun hx => hne (hx ▸ he)),
          alist_get, if_neg (show ¬ k'' = k' from fun hx => hne (hx ▸ he))]
    · rw [insert_max_freq, if_neg he, alist_get, alist_get, ih]

theorem alist_get_mem (k : ℕ) : ∀ (m : List (ℕ × ℕ)) (f : ℕ),
    alist_get k m = some f → (k, f) ∈ m := by
  intro m
  induction m with
  | nil => intro f hf; simp [alist_get] at hf
  | cons q rest ih =>
    intro f hf
    obtain ⟨k', f'⟩ := q
    rw [alist_get] at hf
    split at hf
    · next he =>
      cases hf
      exact he ▸ List.mem_cons_self _ _
    · exact List.mem_cons_of_mem _ (ih f hf)

/- Basic geometry of the probe sequence. -/
theorem em_slot_lt (t : exact_match_table_t) (k j : ℕ) (h : 0 < t.table_size) :
    em_slot t k j < t.table_size :=
  Nat.mod_lt _ h

theorem em_slot_inj (t : exact_match_table_t) (k : ℕ)
    {j1 j2 : ℕ} (h1 : j1 < t.table_size) (h2 : j2 < t.table_size)
    (he : em_slot t k j1 = em_slot t k j2) : j1 = j2 := by
  unfold em_slot at he
  have hmod : j1 % t.table_size = j2 % t.table_size :=
    Nat.ModEq.add_left_cancel (Nat.ModEq.refl (k % t.table_size)) he
  rwa [Nat.mod_eq_of_lt h1, Nat.mod_eq_of_lt h2] at hmod

/- The invariant tying a table state to its association list: all keys are
nonzero and duplicate-free, fewer keys than slots; every key sits at the end
of an unbroken probe path of foreign occupied slots; every occupied slot
carries one of the listed pairs; and no hash value occupies two slots. -/
structure EMInv (t : exact_match_table_t) (m : List (ℕ × ℕ)) : Prop where
  tsize_pos : 0 < t.table_size
  keys_nodup : (m.map Prod.fst).Nodup
  keys_ne_zero : ∀ p ∈ m, p.1 ≠ 0
  size_lt : m.length < t.table_size
  present : ∀ p ∈ m, ∃ j < t.table_size,
    (∀ j' < j, t.hashes (em_slot t p.1 j') ≠ 0 ∧ t.hashes (em_slot t p.1 j') ≠ p.1) ∧
    t.hashes (em_slot t p.1 j) = p.1 ∧ t.frequencies (em_slot t p.1 j) = p.2
  occupied_mem : ∀ pos, pos < t.table_size → t.hashes pos ≠ 0 →
    (t.hashes pos, t.frequencies pos) ∈ m
  hashes_inj : ∀ p1 p2, p1 < t.table_size → p2 < t.table_size →
    t.hashes p1 ≠ 0 → t.hashes p1 = t.hashes p2 → p1 = p2

/- Pigeonhole: with fewer keys than slots some probe position is empty. -/
theorem em_exists_empty_slot {t : exact_match_table_t} {m : List (ℕ × ℕ)}
    (hinv : EMInv t m) (k : ℕ) :
    ∃ j < t.table_size, t.hashes (em_slot t k j) = 0 := by
  by_contra hall
  push_neg at hall
  have hcard : (Finset.range t.table_size).card ≤ (m.map Prod.fst).toFinset.card := by
    apply Finset.card_le_card_of_injOn (fun j => t.hashes (em_slot t k j))
    · intro j hj
      rw [List.mem_toFinset]
      have hjlt := Finset.mem_range.mp hj
      have hocc := hall j hjlt
      exact List.mem_map_of_mem Prod.fst
        (hinv.occupied_mem _ (em_slot_lt t k j hinv.tsize_pos) hocc)
    · intro j1 hj1 j2 hj2 he
      have hj1' := Finset.mem_range.mp hj1
      have hj2' := Finset.mem_range.mp hj2
      have hpos := hinv.hashes_inj (em_slot t k j1) (em_slot t k j2)
        (em_slot_lt t k j1 hinv.tsize_pos) (em_slot_lt t k j2 hinv.tsize_pos)
        (hall j1 hj1') he
      exact em_slot_inj t k hj1' hj2' hpos
  have hle : (m.map Prod.fst).toFinset.card ≤ m.length := by
    calc (m.map Prod.fst).toFinset.card ≤ (m.map Prod.fst).length := List.toFinset_card_le _
    _ = m.length := List.length_map _ _
  have hsz := hinv.size_lt
  rw [Finset.card_range] at hcard
  omega

/- Probe-path lemmas: the find and insert loops walk the probe sequence of a
hash; once the slots before step jt are known to be occupied by foreign
hashes, the loop's outcome at step jt is determined. -/
theorem em_find_pos_aux_reach (t : exact_match_table_t) (k : ℕ) (jt : ℕ)
    (hk0 : k ≠ 0) (hmatch : t.hashes (em_slot t k jt) = k)
    (hpath : ∀ j' < jt, t.hashes (em_slot t k j') ≠ 0 ∧ t.hashes (em_slot t k j') ≠ k) :
    ∀ fuel j0, j0 ≤ jt → jt < j0 + fuel →
      em_find_pos_aux t k j0 fuel = some (em_slot t k jt) := by
  intro fuel
  induction fuel with
  | zero => intro j0 hle hlt; omega
  | succ n ih =>
    intro j0 hle hlt
    rw [em_find_pos_aux]
    by_cases hj : j0 = jt
    · subst hj
      rw [if_neg (by rw [hmatch]; exact hk0), if_pos hmatch]
    · obtain ⟨hne0, hnek⟩ := hpath j0 (lt_of_le_of_ne hle hj)
      rw [if_neg hne0, if_neg hnek]
      exact ih (j0 + 1) (by omega) (by omega)

theorem em_find_pos_aux_miss (t : exact_match_table_t) (k : ℕ) (jt : ℕ)
    (hempty : t.hashes (em_slot t k jt) = 0)
    (hpath : ∀ j' < jt, t.hashes (em_slot t k j') ≠ 0 ∧ t.hashes (em_slot t k j') ≠ k) :
    ∀ fuel j0, j0 ≤ jt → jt < j0 + fuel →
      em_find_pos_aux t k j0 fuel = none := by
  intro fuel
  induction fuel with
  | zero => intro j0 hle hlt; omega
  | succ n ih =>
    intro j0 hle hlt
    rw [em_find_pos_aux]
    by_cases hj : j0 = jt
    · subst hj
      rw [if_pos hempty]
    · obtain ⟨hne0, hnek⟩ := hpath j0 (lt_of_le_of_ne hle hj)
      rw [if_neg hne0, if_neg hnek]
      exact ih (j0 + 1) (by omega) (by omega)

theorem add_exact_match_aux_match (t : exact_match_table_t) (k f : ℕ) (jt : ℕ)
    (hk0 : k ≠ 0) (hmatch : t.hashes (em_slot t k jt) = k)
    (hpath : ∀ j' < jt, t.hashes (em_slot t k j') ≠ 0 ∧ t.hashes (em_slot t k j') ≠ k) :
    ∀ fuel j0, j0 ≤ jt → jt < j0 + fuel →
      add_exact_match_aux t k f j0 fuel =
        ({ t with
             frequencies :=
               Function.update t.frequencies (em_slot t k jt)
                 (if f > t.frequencies (em_slot t k jt) then f
                   else t.frequencies (em_slot t k jt)) }, true) := by
  intro fuel
  induction fuel with
  | zero => intro j0 hle hlt; omega
  | succ n ih =>
    intro j0 hle hlt
    rw [add_exact_match_aux]
    by_cases hj : j0 = jt
    · subst hj
      rw [if_neg (by rw [hmatch]; exact hk0), if_pos hmatch]
    · obtain ⟨hne0, hnek⟩ := hpath j0 (lt_of_le_of_ne hle hj)
      rw [if_neg hne0, if_neg hnek]
      exact ih (j0 + 1) (by omega) (by omega)

theorem add_exact_match_aux_empty (t : exact_match_table_t) (k f : ℕ) (jt : ℕ)
    (hempty : t.hashes (em_slot t k jt) = 0)
    (hpath : ∀ j' < jt, t.hashes (em_slot t k j') ≠ 0 ∧ t.hashes (em_slot t k j') ≠ k) :
    ∀ fuel j0, j0 ≤ jt → jt < j0 + fuel →
      add_exact_match_aux t k f j0 fuel =
        ({ t with hashes := Function.update t.hashes (em_slot t k jt) k,
                  frequencies := Function.update t.frequencies (em_slot t k jt) f }, true) := by
  intro fuel
  induction fuel with
  | zero => intro j0 hle hlt; omega
  | succ n ih =>
    intro j0 hle hlt
    rw [add_exact_match_aux]
    by_cases hj : j0 = jt
    · subst hj
      rw [if_pos hempty]
    · obtain ⟨hne0, hnek⟩ := hpath j0 (lt_of_le_of_ne hle hj)
      rw [if_neg hne0, if_neg hnek]
      exact ih (j0 + 1) (by omega) (by omega)

/- Lookup of a listed pair along the table probe. -/
theorem em_find_pos_found {t : exact_match_table_t} {m : List (ℕ × ℕ)}
    (hinv : EMInv t m) {k f : ℕ} (hkf : (k, f) ∈ m) :
    ∃ pos, em_find_pos t k = some pos ∧ pos < t.table_size ∧
      t.hashes pos = k ∧ t.frequencies pos = f := by
  obtain ⟨j, hj, hpath, hmatch, hfreq⟩ := hinv.present (k, f) hkf
  have hk0 : k ≠ 0 := hinv.keys_ne_zero _ hkf
  exact ⟨em_slot t k j,
    em_find_pos_aux_reach t k j hk0 hmatch hpath t.table_size 0 (by omega) (by omega),
    em_slot_lt t k j hinv.tsize_pos, hmatch, hfreq⟩

/- A hash that is not a key is not found: the probe stops at the first empty
slot, having passed only foreign occupied slots. -/
theorem em_find_pos_absent {t : exact_match_table_t} {m : List (ℕ × ℕ)}
    (hinv : EMInv t m) (k : ℕ) (hk : k ∉ m.map Prod.fst) :
    em_find_pos t k = none := by
  have hex : ∃ j, t.hashes (em_slot t k j) = 0 := by
    obtain ⟨j, _, hj⟩ := em_exists_empty_slot hinv k
    exact ⟨j, hj⟩
  classical
  let jt := Nat.find hex
  have hempty : t.hashes (em_slot t k jt) = 0 := Nat.find_spec hex
  have hjlt : jt < t.table_size := by
    obtain ⟨j, hjN, hj0⟩ := em_exists_empty_slot hinv k
    exact lt_of_le_of_lt (Nat.find_le hj0) hjN
  have hpath : ∀ j' < jt, t.hashes (em_slot t k j') ≠ 0 ∧ t.hashes (em_slot t k j') ≠ k := by
    intro j' hj'
    have hocc : t.hashes (em_slot t k j') ≠ 0 := Nat.find_min hex hj'
    refine ⟨hocc, fun heq => ?_⟩
    have hmem := hinv.occupied_mem _ (em_slot_lt t k j' hinv.tsize_pos) hocc
    exact hk (heq ▸ List.mem_map_of_mem Prod.fst hmem)
  exact em_find_pos_aux_miss t k jt hempty hpath t.table_size 0 (by omega) (by omega)

/- Projection facts for the two record shapes produced by add_exact_match. -/
@[simp] theorem em_upd_f_hashes (t : exact_match_table_t) (fz : ℕ → ℕ) :
    ({ t with frequencies := fz } : exact_match_table_t).hashes = t.hashes := rfl

@[simp] theorem em_upd_f_freq (t : exact_match_table_t) (fz : ℕ → ℕ) :
    ({ t with frequencies := fz } : exact_match_table_t).frequencies = fz := rfl

@[simp] theorem em_upd_f_tsize (t : exact_match_table_t) (fz : ℕ → ℕ) :
    ({ t with frequencies := fz } : exact_match_table_t).table_size = t.table_size := rfl

@[simp] theorem em_upd_hf_hashes (t : exact_match_table_t) (hz fz : ℕ → ℕ) :
    ({ t with hashes := hz, frequencies := fz } : exact_match_table_t).hashes = hz := rfl

@[simp] theorem em_upd_hf_freq (t : exact_match_table_t) (hz fz : ℕ → ℕ) :
    ({ t with hashes := hz, frequencies := fz } : exact_match_table_t).frequencies = fz := rfl

@[simp] theorem em_upd_hf_tsize (t : exact_match_table_t) (hz fz : ℕ → ℕ) :
    ({ t with hashes := hz, frequencies := fz } : exact_match_table_t).table_size = t.table_size := rfl

@[simp] theorem em_slot_upd_f (t : exact_match_table_t) (fz : ℕ → ℕ) (k j : ℕ) :
    em_slot ({ t with frequencies := fz } : exact_match_table_t) k j = em_slot t k j := rfl

@[simp] theorem em_slot_upd_hf (t : exact_match_table_t) (hz fz : ℕ → ℕ) (k j : ℕ) :
    em_slot ({ t with hashes := hz, frequencies := fz } : exact_match_table_t) k j
      = em_slot t k j := rfl

/- Inserting an already-present hash keeps the invariant, merging to the
larger frequency. -/
theorem EMInv_insert_mem {t : exact_match_table_t} {m : List (ℕ × ℕ)}
    (hinv : EMInv t m) (k f : ℕ) (hk0 : k ≠ 0)
    (hmem : k ∈ m.map Prod.fst) :
    EMInv (add_exact_match t k f).1 (insert_max_freq k f m) := by
  obtain ⟨p, hp, hfst⟩ := List.mem_map.mp hmem
  obtain ⟨k0, f0⟩ := p
  simp only at hfst
  subst hfst
  obtain ⟨j, hjlt, hpath, hmatch, hfreq⟩ := hinv.present (k0, f0) hp
  have hins := add_exact_match_aux_match t k0 f j hk0 hmatch hpath t.table_size 0
    (by omega) (by omega)
  have heq : (add_exact_match t k0 f).1 =
      { t with
          frequencies :=
            Function.update t.frequencies (em_slot t k0 j)
              (if f > t.frequencies (em_slot t k0 j) then f
                else t.frequencies (em_slot t k0 j)) } := by
    rw [add_exact_match, hins]
  have hmemiff := insert_max_freq_mem_iff k0 f f0 m hinv.keys_nodup hp
  have hvmax : (if f > t.frequencies (em_slot t k0 j) then f
      else t.frequencies (em_slot t k0 j)) = (if f > f0 then f else f0) := by
    rw [hfreq]
  rw [heq]
  refine ⟨?_, ?_, ?_, ?_, ?_, ?_, ?_⟩
  · simpa using hinv.tsize_pos
  · rw [insert_max_freq_map_fst_of_mem k0 f m hmem]
    exact hinv.keys_nodup
  · intro p hpm
    rcases (hmemiff p).mp hpm with rfl | ⟨hpmem, _⟩
    · exact hk0
    · exact hinv.keys_ne_zero p hpmem
  · rw [insert_max_freq_length_of_mem k0 f m hmem]
    simpa using hinv.size_lt
  · intro p hpm
    rcases (hmemiff p).mp hpm with rfl | ⟨hpmem, hpne⟩
    · refine ⟨j, by simpa using hjlt, ?_, ?_, ?_⟩
      · simpa using hpath
      · simpa using hmatch
      · simp only [em_slot_upd_f, em_upd_f_freq]
        rw [Function.update_same, hvmax]
    · obtain ⟨jp, hjplt, hppath, hpmatch, hpfreq⟩ := hinv.present p hpmem
      refine ⟨jp, by simpa using hjplt, ?_, ?_, ?_⟩
      · simpa using hppath
      · simpa using hpmatch
      · simp only [em_slot_upd_f, em_upd_f_freq]
        have hne : em_slot t p.1 jp ≠ em_slot t k0 j := by
          intro hc
          rw [hc, hmatch] at hpmatch
          exact hpne hpmatch.symm
        rw [Function.update_noteq hne, hpfreq]
  · intro pos hlt hocc
    simp only [em_upd_f_hashes, em_upd_f_freq, em_upd_f_tsize] at hlt hocc ⊢
    by_cases hpe : pos = em_slot t k0 j
    · subst hpe
      rw [Function.update_same, hvmax, hmatch]
      exact (hmemiff _).mpr (Or.inl rfl)
    · rw [Function.update_noteq hpe]
      have hold := hinv.occupied_mem pos hlt hocc
      have hnek : t.hashes pos ≠ k0 := by
        intro hhk
        exact hpe (hinv.hashes_inj pos (em_slot t k0 j) hlt
          (em_slot_lt t k0 j hinv.tsize_pos) hocc (hhk.trans hmatch.symm))
      exact (hmemiff _).mpr (Or.inr ⟨hold, hnek⟩)
  · intro p1 p2 h1 h2 hocc heqh
    simp only [em_upd_f_hashes, em_upd_f_tsize] at h1 h2 hocc heqh
    exact hinv.hashes_inj p1 p2 h1 h2 hocc heqh

/- Inserting a fresh nonzero hash lands in the first empty probe slot and
appends the pair. -/
theorem EMInv_insert_fresh {t : exact_match_table_t} {m : List (ℕ × ℕ)}
    (hinv : EMInv t m) (k f : ℕ) (hk0 : k ≠ 0)
    (hmem : k ∉ m.map Prod.fst) (hroom : m.length + 1 < t.table_size) :
    EMInv (add_exact_match t k f).1 (insert_max_freq k f m) := by
  have hex : ∃ j, t.hashes (em_slot t k j) = 0 := by
    obtain ⟨j, _, hj⟩ := em_exists_empty_slot hinv k
    exact ⟨j, hj⟩
  classical
  have hempty : t.hashes (em_slot t k (Nat.find hex)) = 0 := Nat.find_spec hex
  have hjlt : Nat.find hex < t.table_size := by
    obtain ⟨j, hjN, hj0⟩ := em_exists_empty_slot hinv k
    exact lt_of_le_of_lt (Nat.find_le hj0) hjN
  have hpath : ∀ j' < Nat.find hex,
      t.hashes (em_slot t k j') ≠ 0 ∧ t.hashes (em_slot t k j') ≠ k := by
    intro j' hj'
    have hocc : t.hashes (em_slot t k j') ≠ 0 := Nat.find_min hex hj'
    refine ⟨hocc, fun heqk => ?_⟩
    have hmem' := hinv.occupied_mem _ (em_slot_lt t k j' hinv.tsize_pos) hocc
    exact hmem (heqk ▸ List.mem_map_of_mem Prod.fst hmem')
  have hins := add_exact_match_aux_empty t k f (Nat.find hex) hempty hpath t.table_size 0
    (by omega) (by omega)
  have heq : (add_exact_match t k f).1 =
      { t with
          hashes := Function.update t.hashes (em_slot t k (Nat.find hex)) k,
          frequencies := Function.update t.frequencies (em_slot t k (Nat.find hex)) f } := by
    rw [add_exact_match, hins]
  have hmeq : insert_max_freq k f m = m ++ [(k, f)] :=
    insert_max_freq_append_of_not_mem k f m hmem
  have hposlt : em_slot t k (Nat.find hex) < t.table_size := em_slot_lt t k _ hinv.tsize_pos
  rw [heq, hmeq]
  refine ⟨?_, ?_, ?_, ?_, ?_, ?_, ?_⟩
  · simpa using hinv.tsize_pos
  · rw [List.map_append, List.nodup_append]
    refine ⟨hinv.keys_nodup, List.nodup_singleton _, ?_⟩
    intro a ha hb
    rw [List.map_singleton, List.mem_singleton] at hb
    subst hb
    exact hmem ha
  · intro p hpm
    rcases List.mem_append.mp hpm with hpm | hpm
    · exact hinv.keys_ne_zero p hpm
    · rw [List.mem_singleton] at hpm
      exact hpm ▸ hk0
  · simpa using hroom
  · intro p hpm
    rcases List.mem_append.mp hpm with hpm | hpm
    · obtain ⟨jp, hjplt, hppath, hpmatch, hpfreq⟩ := hinv.present p hpm
      refine ⟨jp, by simpa using hjplt, ?_, ?_, ?_⟩
      · intro j' hj'
        obtain ⟨hne0, hnep⟩ := hppath j' hj'
        have hne : em_slot t p.1 j' ≠ em_slot t k (Nat.find hex) :=
          fun hc => hne0 (hc ▸ hempty)
        simp only [em_slot_upd_hf, em_upd_hf_hashes]
        rw [Function.update_noteq hne]
        exact ⟨hne0, hnep⟩
      · have hne : em_slot t p.1 jp ≠ em_slot t k (Nat.find hex) :=
          fun hc => (hinv.keys_ne_zero p hpm) (by rw [← hpmatch, hc]; exact hempty)
        simp only [em_slot_upd_hf, em_upd_hf_hashes]
        rw [Function.update_noteq hne]
        exact hpmatch
      · have hne : em_slot t p.1 jp ≠ em_slot t k (Nat.find hex) :=
          fun hc => (hinv.keys_ne_zero p hpm) (by rw [← hpmatch, hc]; exact hempty)
        simp only [em_slot_upd_hf, em_upd_hf_freq]
        rw [Function.update_noteq hne]
        exact hpfreq
    · rw [List.mem_singleton] at hpm
      subst hpm
      refine ⟨Nat.find hex, by simpa using hjlt, ?_, ?_, ?_⟩
      · intro j' hj'
        obtain ⟨hne0, hnek⟩ := hpath j' hj'
        have hne : em_slot t k j' ≠ em_slot t k (Nat.find hex) := by
          intro hc
          exact absurd (em_slot_inj t k (lt_trans hj' hjlt) hjlt hc) (Nat.ne_of_lt hj')
        simp only [em_slot_upd_hf, em_upd_hf_hashes]
        rw [Function.update_noteq hne]
        exact ⟨hne0, hnek⟩
      · simp only [em_slot_upd_hf, em_upd_hf_hashes]
        rw [Function.update_same]
      · simp only [em_slot_upd_hf, em_upd_hf_freq]
        rw [Function.update_same]
  · intro pos hlt hocc
    simp only [em_upd_hf_hashes, em_upd_hf_freq, em_upd_hf_tsize] at hlt hocc ⊢
    by_cases hpe : pos = em_slot t k (Nat.find hex)
    · subst hpe
      rw [Function.update_same, Function.update_same]
      exact List.mem_append_right _ (List.mem_singleton.mpr rfl)
    · rw [Function.update_noteq hpe] at hocc
      rw [Function.update_noteq hpe, Function.update_noteq hpe]
      exact List.mem_append_left _ (hinv.occupied_mem pos hlt hocc)
  · intro p1 p2 h1 h2 hocc heqh
    simp only [em_upd_hf_hashes, em_upd_hf_tsize] at h1 h2 hocc heqh
    by_cases he1 : p1 = em_slot t k (Nat.find hex) <;>
      by_cases he2 : p2 = em_slot t k (Nat.find hex)
    · rw [he1, he2]
    · exfalso
      rw [he1, Function.update_same] at heqh
      rw [Function.update_noteq he2] at heqh
      have hocc2 : t.hashes p2 ≠ 0 := by rw [← heqh]; exact hk0
      exact hmem (heqh ▸ List.mem_map_of_mem Prod.fst (hinv.occupied_mem p2 h2 hocc2))
    · exfalso
      rw [Function.update_noteq he1] at heqh hocc
      rw [he2, Function.update_same] at heqh
      exact hmem (heqh ▸ List.mem_map_of_mem Prod.fst (hinv.occupied_mem p1 h1 hocc))
    · rw [Function.update_noteq he1] at heqh hocc
      rw [Function.update_noteq he2] at heqh
      exact hinv.hashes_inj p1 p2 h1 h2 hocc heqh

/- Combined insert preservation. -/
theorem EMInv_insert {t : exact_match_table_t} {m : List (ℕ × ℕ)}
    (hinv : EMInv t m) (k f : ℕ) (hk0 : k ≠ 0)
    (hroom : m.length + 1 < t.table_size) :
    EMInv (add_exact_match t k f).1 (insert_max_freq k f m) := by
  by_cases hmem : k ∈ m.map Prod.fst
  · exact EMInv_insert_mem hinv k f hk0 hmem
  · exact EMInv_insert_fresh hinv k f hk0 hmem hroom

/- Load-level plumbing: the admitted (term, freq) pairs of a load pass, the
dictionary fold over them, and the abstract frequency map they build. -/
def admitted_pairs (lines : List (List Char)) (ti ci : ℕ) : List (List Char × ℕ) :=
  lines.filterMap (fun l => parse_line l ti ci)

def ingest_fold (h : List Char → ℕ) (dict : symspell_dict_t)
    (pairs : List (List Char × ℕ)) : symspell_dict_t :=
  pairs.foldl (fun d tf => ingest_pair h d tf.1 tf.2) dict

def build_freq_map (h : List Char → ℕ) (pairs : List (List Char × ℕ)) : List (ℕ × ℕ) :=
  pairs.foldl (fun m tf => insert_max_freq (h (str_tolower tf.1)) tf.2 m) []

/- The maximum frequency observed for a (lowercased) word across a pair
sequence — the value claims C7 and P3 are about. -/
def max_freq_of (pairs : List (List Char × ℕ)) (w : List Char) : ℕ :=
  (pairs.filter (fun tf => str_tolower tf.1 = w)).foldl (fun a tf => max a tf.2) 0

theorem load_fold_fst (h : List Char → ℕ) (ti ci : ℕ) :
    ∀ (lines : List (List Char)) (d : symspell_dict_t) (mf : ℕ),
    (lines.foldl (load_step h ti ci) (d, mf)).1 =
      ingest_fold h d (admitted_pairs lines ti ci) := by
  intro lines
  induction lines with
  | nil => intro d mf; rfl
  | cons l rest ih =>
    intro d mf
    simp only [List.foldl_cons, admitted_pairs, List.filterMap_cons]
    cases hp : parse_line l ti ci with
    | none =>
      simp only [load_step, hp]
      exact ih d mf
    | some tf =>
      obtain ⟨term, freq⟩ := tf
      simp only [load_step, hp, ingest_fold, List.foldl_cons]
      exact ih (ingest_pair h d term freq) (if mf = 0 then freq else mf)

theorem ingest_pair_exact (h : List Char → ℕ) (d : symspell_dict_t)
    (term : List Char) (freq : ℕ) :
    (ingest_pair h d term freq).exact_table =
      (add_exact_match d.exact_table (h (str_tolower term)) freq).1 := by
  unfold ingest_pair
  exact (generate_deletes_preserves h _ _ _).2.1

theorem ingest_fold_exact (h : List Char → ℕ) :
    ∀ (pairs : List (List Char × ℕ)) (d : symspell_dict_t),
    (ingest_fold h d pairs).exact_table =
      pairs.foldl (fun t tf => (add_exact_match t (h (str_tolower tf.1)) tf.2).1)
        d.exact_table := by
  intro pairs
  induction pairs with
  | nil => intro d; rfl
  | cons p0 rest ih =>
    intro d
    simp only [ingest_fold, List.foldl_cons] at ih ⊢
    rw [ih (ingest_pair h d p0.1 p0.2), ingest_pair_exact]

theorem add_exact_match_aux_tsize (t : exact_match_table_t) (k f : ℕ) :
    ∀ fuel j, (add_exact_match_aux t k f j fuel).1.table_size = t.table_size := by
  intro fuel
  induction fuel with
  | zero => intro j; rfl
  | succ n ih =>
    intro j
    rw [add_exact_match_aux]
    split
    · rfl
    · split
      · rfl
      · exact ih (j + 1)

theorem add_exact_match_tsize (t : exact_match_table_t) (k f : ℕ) :
    (add_exact_match t k f).1.table_size = t.table_size :=
  add_exact_match_aux_tsize t k f t.table_size 0

/- The exact-table fold keeps the invariant against the frequency-map fold. -/
theorem EMInv_em_fold (h : List Char → ℕ) :
    ∀ (pairs : List (List Char × ℕ)) (t : exact_match_table_t) (m : List (ℕ × ℕ)),
    EMInv t m → (∀ p ∈ pairs, h (str_tolower p.1) ≠ 0) →
    m.length + pairs.length < t.table_size →
    EMInv (pairs.foldl (fun t tf => (add_exact_match t (h (str_tolower tf.1)) tf.2).1) t)
      (pairs.foldl (fun m tf => insert_max_freq (h (str_tolower tf.1)) tf.2 m) m) := by
  intro pairs
  induction pairs with
  | nil => intro t m hinv _ _; exact hinv
  | cons p0 rest ih =>
    intro t m hinv hz hlen
    simp only [List.foldl_cons, List.length_cons] at hlen ⊢
    have hnew := EMInv_insert hinv (h (str_tolower p0.1)) p0.2
      (hz p0 (List.mem_cons_self _ _)) (by omega)
    apply ih _ _ hnew
    · intro p hp
      exact hz p (List.mem_cons_of_mem _ hp)
    · rw [add_exact_match_tsize]
      have hl := insert_max_freq_length (h (str_tolower p0.1)) p0.2 m
      omega

/- Evaluating max_freq_of across an appended pair. -/
theorem max_freq_of_append_match (pairs : List (List Char × ℕ)) (p0 : List Char × ℕ)
    (w : List Char) (hm : str_tolower p0.1 = w) :
    max_freq_of (pairs ++ [p0]) w = max (max_freq_of pairs w) p0.2 := by
  unfold max_freq_of
  rw [List.filter_append, List.foldl_append]
  simp [hm]

theorem max_freq_of_append_nonmatch (pairs : List (List Char × ℕ)) (p0 : List Char × ℕ)
    (w : List Char) (hm : str_tolower p0.1 ≠ w) :
    max_freq_of (pairs ++ [p0]) w = max_freq_of pairs w := by
  unfold max_freq_of
  rw [List.filter_append]
  simp [hm]

theorem max_freq_of_not_occ (pairs : List (List Char × ℕ)) (w : List Char)
    (hno : ∀ p ∈ pairs, str_tolower p.1 ≠ w) : max_freq_of pairs w = 0 := by
  unfold max_freq_of
  rw [List.filter_eq_nil_iff.mpr (by simpa using hno)]
  rfl

/- The frequency map records, for each word hash, the maximum frequency seen
for that word — provided no other admitted word collides with its hash. -/
theorem build_freq_map_get (h : List Char → ℕ) (w : List Char) :
    ∀ (pairs : List (List Char × ℕ)),
    (∀ p ∈ pairs, str_tolower p.1 ≠ w → h (str_tolower p.1) ≠ h w) →
    alist_get (h w) (build_freq_map h pairs) =
      if ∃ p ∈ pairs, str_tolower p.1 = w then some (max_freq_of pairs w) else none := by
  intro pairs
  induction pairs using List.reverseRecOn with
  | nil => intro _; simp [build_freq_map, alist_get]
  | append_singleton l p0 ih =>
    intro hinj
    have hstep : build_freq_map h (l ++ [p0]) =
        insert_max_freq (h (str_tolower p0.1)) p0.2 (build_freq_map h l) := by
      unfold build_freq_map
      rw [List.foldl_append]
      rfl
    have ihl := ih (fun p hp => hinj p (List.mem_append_left _ hp))
    by_cases hm : str_tolower p0.1 = w
    · rw [hstep, hm, alist_get_insert_same, ihl]
      have hcond : ∃ p ∈ l ++ [p0], str_tolower p.1 = w :=
        ⟨p0, List.mem_append_right _ (List.mem_singleton.mpr rfl), hm⟩
      rw [if_pos hcond, max_freq_of_append_match l p0 w hm]
      by_cases hex : ∃ p ∈ l, str_tolower p.1 = w
      · rw [if_pos hex]
        have hmx : (if p0.2 > max_freq_of l w then p0.2 else max_freq_of l w) =
            max (max_freq_of l w) p0.2 := by
          split <;> omega
        simp [hmx]
      · rw [if_neg hex]
        push_neg at hex
        rw [max_freq_of_not_occ l w hex]
        simp
    · have hh : h w ≠ h (str_tolower p0.1) :=
        fun he => hinj p0 (List.mem_append_right _ (List.mem_singleton.mpr rfl)) hm he.symm
      have hcond : (∃ p ∈ l ++ [p0], str_tolower p.1 = w) ↔
          (∃ p ∈ l, str_tolower p.1 = w) := by
        constructor
        · rintro ⟨p, hp, hpw⟩
          rcases List.mem_append.mp hp with hp | hp
          · exact ⟨p, hp, hpw⟩
          · rw [List.mem_singleton] at hp
            exact absurd (hp ▸ hpw) hm
        · rintro ⟨p, hp, hpw⟩
          exact ⟨p, List.mem_append_left _ hp, hpw⟩
      rw [hstep, alist_get_insert_other _ _ _ hh, ihl,
        max_freq_of_append_nonmatch l p0 w hm]
      by_cases hex : ∃ p ∈ l, str_tolower p.1 = w
      · rw [if_pos hex, if_pos (hcond.mpr hex)]
      · rw [if_neg hex, if_neg (fun hc => hex (hcond.mp hc))]

/- Fields of a freshly created dictionary. -/
theorem symspell_create_fields {ed pl : ℤ} {d : symspell_dict_t}
    (hc : symspell_create ed pl = some d) :
    d.table = (fun _ => none) ∧
    d.exact_table = { hashes := fun _ => 0, frequencies := fun _ => 0,
                      probabilities := fun _ => 0,
                      table_size := EXACT_MATCH_TABLE_SIZE } ∧
    d.delete_buffer_capacity = DELETE_QUEUE_CAPACITY ∧
    0 < d.table_size := by
  unfold symspell_create at hc
  split at hc
  · cases hc
  · cases hc
    refine ⟨rfl, rfl, rfl, ?_⟩
    dsimp only
    split
    · decide
    · split
      · decide
      · decide

theorem EMInv_create {ed pl : ℤ} {d : symspell_dict_t}
    (hc : symspell_create ed pl = some d) : EMInv d.exact_table [] := by
  rw [(symspell_create_fields hc).2.1]
  refine ⟨by decide, by simp, by simp, by decide, by simp, ?_, ?_⟩
  · intro pos _ hocc
    exact absurd rfl hocc
  · intro p1 p2 _ _ hocc _
    exact absurd rfl hocc

/- The probability sweep leaves hashes, frequencies and probing untouched. -/
theorem probability_sweep_hashes (t : exact_match_table_t) (mf : ℕ) :
    (probability_sweep t mf).hashes = t.hashes := rfl

theorem probability_sweep_freq (t : exact_match_table_t) (mf : ℕ) :
    (probability_sweep t mf).frequencies = t.frequencies := rfl

theorem probability_sweep_find_aux (t : exact_match_table_t) (mf k : ℕ) :
    ∀ fuel j, em_find_pos_aux (probability_sweep t mf) k j fuel =
      em_find_pos_aux t k j fuel := by
  intro fuel
  induction fuel with
  | zero => intro j; rfl
  | succ n ih =>
    intro j
    rw [em_find_pos_aux, em_find_pos_aux]
    show (if t.hashes (em_slot t k j) = 0 then none
      else if t.hashes (em_slot t k j) = k then some (em_slot t k j)
      else em_find_pos_aux (probability_sweep t mf) k (j + 1) n) = _
    rw [ih (j + 1)]

theorem probability_sweep_find (t : exact_match_table_t) (mf k : ℕ) :
    em_find_pos (probability_sweep t mf) k = em_find_pos t k :=
  probability_sweep_find_aux t mf k t.table_size 0

theorem probability_sweep_prob (t : exact_match_table_t) (mf pos : ℕ) :
    (probability_sweep t mf).probabilities pos =
      if pos < t.table_size ∧ t.hashes pos ≠ 0 then mkRat (t.frequencies pos) mf
      else t.probabilities pos := rfl

theorem EMInv_sweep {t : exact_match_table_t} {m : List (ℕ × ℕ)} (mf : ℕ)
    (hinv : EMInv t m) : EMInv (probability_sweep t mf) m :=
  ⟨hinv.tsize_pos, hinv.keys_nodup, hinv.keys_ne_zero, hinv.size_lt,
   hinv.present, hinv.occupied_mem, hinv.hashes_inj⟩

/- After a full load pass into a freshly created dictionary, the exact table
realizes the frequency map of the admitted pairs. -/
theorem load_EMInv (h : List Char → ℕ) {ed pl : ℤ} {d0 : symspell_dict_t}
    (lines : List (List Char)) (ti ci : ℕ)
    (hc : symspell_create ed pl = some d0)
    (hz : ∀ p ∈ admitted_pairs lines ti ci, h (str_tolower p.1) ≠ 0)
    (hroom : (admitted_pairs lines ti ci).length < EXACT_MATCH_TABLE_SIZE) :
    EMInv (symspell_load_dictionary h d0 lines ti ci).exact_table
      (build_freq_map h (admitted_pairs lines ti ci)) := by
  unfold symspell_load_dictionary
  dsimp only
  apply EMInv_sweep
  have h1 : (load_fold h d0 lines ti ci).1.exact_table =
      (admitted_pairs lines ti ci).foldl
        (fun t tf => (add_exact_match t (h (str_tolower tf.1)) tf.2).1)
        d0.exact_table := by
    rw [load_fold, load_fold_fst, ingest_fold_exact]
  rw [h1]
  have hts : d0.exact_table.table_size = EXACT_MATCH_TABLE_SIZE := by
    rw [(symspell_create_fields hc).2.1]
  apply EMInv_em_fold h _ _ _ (EMInv_create hc) hz
  rw [hts]
  simpa using hroom

/- A successful probe yields a matching, occupied, in-range slot. -/
theorem em_find_pos_aux_some_spec (t : exact_match_table_t) (k : ℕ) :
    ∀ fuel j pos, em_find_pos_aux t k j fuel = some pos →
      t.hashes pos = k ∧ t.hashes pos ≠ 0 := by
  intro fuel
  induction fuel with
  | zero => intro j pos hf; cases hf
  | succ n ih =>
    intro j pos hf
    rw [em_find_pos_aux] at hf
    split at hf
    · cases hf
    · split at hf
      · next h0 hk =>
        cases hf
        exact ⟨hk, h0⟩
      · exact ih (j + 1) pos hf

theorem em_find_pos_some_spec (t : exact_match_table_t) (k pos : ℕ)
    (hf : em_find_pos t k = some pos) :
    t.hashes pos = k ∧ t.hashes pos ≠ 0 ∧ pos < t.table_size := by
  obtain ⟨h1, h2⟩ := em_find_pos_aux_some_spec t k t.table_size 0 pos hf
  refine ⟨h1, h2, ?_⟩
  have hN : 0 < t.table_size := by
    by_contra hN
    have hz : t.table_size = 0 := by omega
    rw [em_find_pos, hz] at hf
    cases hf
  -- a successful probe returns some em_slot, which is reduced mod table_size
  clear h1 h2
  have : ∀ fuel j pos, em_find_pos_aux t k j fuel = some pos → pos < t.table_size := by
    intro fuel
    induction fuel with
    | zero => intro j pos hf'; cases hf'
    | succ n ih =>
      intro j pos hf'
      rw [em_find_pos_aux] at hf'
      split at hf'
      · cases hf'
      · split at hf'
        · cases hf'
          exact em_slot_lt t k j hN
        · exact ih (j + 1) pos hf'
  exact this t.table_size 0 pos hf

/-- C10: symspell_get_iwf returns 0.0 both for a word whose hash probe
misses the loaded dictionary's exact table and for a present word whose
stored frequency equals the load's reference frequency (the code's max_freq,
set from the first admitted line, see C1): its swept probability is 1 and
its iwf is |ln 1| = 0.  The two cases cannot be told apart by the result. -/
theorem c10_get_iwf_zero_absent_and_reference (h : List Char → ℕ)
    (d0 : symspell_dict_t) (lines : List (List Char)) (ti ci : ℕ) (w : List Char) :
    (em_find_pos (symspell_load_dictionary h d0 lines ti ci).exact_table (h w) = none →
      symspell_get_iwf h (symspell_load_dictionary h d0 lines ti ci) w = 0) ∧
    ((em_find_pos (symspell_load_dictionary h d0 lines ti ci).exact_table (h w)).map
        (symspell_load_dictionary h d0 lines ti ci).exact_table.frequencies =
        some (load_fold h d0 lines ti ci).2 →
      0 < (load_fold h d0 lines ti ci).2 →
      symspell_get_iwf h (symspell_load_dictionary h d0 lines ti ci) w = 0) := by
  constructor
  · intro hnone
    unfold symspell_get_iwf
    rw [hnone]
  · intro hmap hmf
    obtain ⟨pos, hfind, hfreq⟩ := Option.map_eq_some'.mp hmap
    unfold symspell_get_iwf
    rw [hfind]
    show em_iwf (symspell_load_dictionary h d0 lines ti ci).exact_table pos = 0
    have hL : (symspell_load_dictionary h d0 lines ti ci).exact_table =
        probability_sweep (load_fold h d0 lines ti ci).1.exact_table
          (load_fold h d0 lines ti ci).2 := rfl
    rw [hL] at hfind hfreq ⊢
    obtain ⟨hhash, hocc, hlt⟩ := em_find_pos_some_spec _ _ _ hfind
    rw [probability_sweep_hashes] at hhash hocc
    rw [probability_sweep_freq] at hfreq
    unfold em_iwf
    rw [probability_sweep_prob, if_pos ⟨hlt, hocc⟩, hfreq, rat_mkRat_eq_div,
      div_self (by exact_mod_cast by omega)]
    unfold calculate_iwf
    rw [if_pos one_pos]
    simp

/-- Witness for c10_get_iwf_zero_absent_and_reference: after loading
"dog 5" and "cat 3", the absent word "zzz" and the reference-frequency word
"dog" (frequency 5 = the reference frequency) both give iwf 0. -/
theorem c10_witness :
    symspell_get_iwf demo_hash
      (symspell_load_dictionary demo_hash demo_dict ["dog 5".data, "cat 3".data] 0 1)
      "zzz".data = 0 ∧
    symspell_get_iwf demo_hash
      (symspell_load_dictionary demo_hash demo_dict ["dog 5".data, "cat 3".data] 0 1)
      "dog".data = 0 :=
  ⟨(c10_get_iwf_zero_absent_and_reference demo_hash demo_dict
      ["dog 5".data, "cat 3".data] 0 1 "zzz".data).1 (by decide),
   (c10_get_iwf_zero_absent_and_reference demo_hash demo_dict
      ["dog 5".data, "cat 3".data] 0 1 "dog".data).2 (by decide) (by decide)⟩

set_option maxRecDepth 4000000 in
set_option maxHeartbeats 8000000 in
/-- C5 counterexample: a 128-character word is admitted by the loader, but
symspell_lookup truncates the query to 127 bytes (strncpy into the 128-byte
term buffer), so looking the word itself up returns no suggestion at all —
in particular none with distance 0. -/
theorem c5_counterexample_long_word_not_found :
    parse_line (List.replicate 128 'a' ++ " 5".data) 0 1 =
      some (List.replicate 128 'a', 5) ∧
    symspell_lookup demo_hash
      (symspell_load_dictionary demo_hash demo_dict
        [List.replicate 128 'a' ++ " 5".data] 0 1)
      (List.replicate 128 'a') 2 10 = [] := by
  refine ⟨by decide, by decide⟩

/-- C5 amended: every word admitted during a load pass into a freshly
created dictionary is found by lookup as a distance-0 suggestion whose term
is the lowercased word, for every requested distance, provided the word fits
the 127-byte lookup buffer, its hash is nonzero, admitted words' hashes do
not collide, the exact table has room, and at least one suggestion is
requested. -/
theorem c5_amended_admitted_word_found_distance_zero
    (h : List Char → ℕ) {ed pl : ℤ} {d0 : symspell_dict_t}
    (lines : List (List Char)) (ti ci : ℕ) (w : List Char) (f : ℕ)
    (req msug : ℤ)
    (hc : symspell_create ed pl = some d0)
    (hw : (w, f) ∈ admitted_pairs lines ti ci)
    (hlen : w.length ≤ SYMSPELL_MAX_TERM_LENGTH - 1)
    (hz : ∀ p ∈ admitted_pairs lines ti ci, h (str_tolower p.1) ≠ 0)
    (hsep : ∀ p ∈ admitted_pairs lines ti ci, str_tolower p.1 ≠ str_tolower w →
      h (str_tolower p.1) ≠ h (str_tolower w))
    (hroom : (admitted_pairs lines ti ci).length < EXACT_MATCH_TABLE_SIZE)
    (hms : 0 < msug) :
    ∃ s ∈ symspell_lookup h (symspell_load_dictionary h d0 lines ti ci) w req msug,
      s.term = str_tolower w ∧ s.distance = 0 := by
  have hinv := load_EMInv h lines ti ci hc hz hroom
  have hget := build_freq_map_get h (str_tolower w) (admitted_pairs lines ti ci) hsep
  rw [if_pos ⟨(w, f), hw, rfl⟩] at hget
  have hmem := alist_get_mem _ _ _ hget
  obtain ⟨pos, hfind, hposlt, hhash, hfreq⟩ := em_find_pos_found hinv hmem
  unfold symspell_lookup
  rw [if_neg (by omega)]
  dsimp only
  rw [List.take_of_length_le hlen, hfind]
  exact ⟨_, List.mem_singleton.mpr rfl, rfl, rfl⟩

/-- Witness for c5_amended_admitted_word_found_distance_zero: the word
"hello" loaded from the line "hello 5" is found with distance 0. -/
theorem c5_witness :
    ∃ s ∈ symspell_lookup demo_hash
        (symspell_load_dictionary demo_hash demo_dict ["hello 5".data] 0 1)
        "hello".data 2 10,
      s.term = str_tolower "hello".data ∧ s.distance = 0 :=
  c5_amended_admitted_word_found_distance_zero demo_hash ["hello 5".data] 0 1
    "hello".data 5 2 10 (show symspell_create 2 7 = some demo_dict from rfl)
    (by decide) (by decide) (by decide) (by decide) (by decide) (by decide)

/-- C9: the word_count reported by symspell_get_stats is the running number
of admitted input lines (accumulated across load passes), counting duplicate
words once per admitted line, not the number of distinct words. -/
theorem c9_word_count_counts_admitted_lines (h : List Char → ℕ)
    (dict : symspell_dict_t) (lines : List (List Char)) (ti ci : ℕ) :
    (symspell_get_stats (symspell_load_dictionary h dict lines ti ci)).1 =
      dict.word_count + lines.countP (fun l => (parse_line l ti ci).isSome) := by
  unfold symspell_get_stats symspell_load_dictionary load_fold
  exact load_fold_word_count h ti ci lines dict 0

/- Delete-index machinery for claim C7.  Probe geometry first. -/
theorem dt_slot_lt (N hashv j : ℕ) (h : 0 < N) : dt_slot N hashv j < N :=
  Nat.mod_lt _ h

theorem dt_slot_inj (N hashv : ℕ) {j1 j2 : ℕ} (h1 : j1 < N) (h2 : j2 < N)
    (he : dt_slot N hashv j1 = dt_slot N hashv j2) : j1 = j2 := by
  unfold dt_slot at he
  have hmod : j1 % N = j2 % N :=
    Nat.ModEq.add_left_cancel (Nat.ModEq.refl hashv) he
  rwa [Nat.mod_eq_of_lt h1, Nat.mod_eq_of_lt h2] at hmod

theorem dt_slot_surj (N hashv : ℕ) (h : 0 < N) (pos : ℕ) (hpos : pos < N) :
    ∃ j < N, dt_slot N hashv j = pos := by
  refine ⟨(pos + N - hashv % N) % N, Nat.mod_lt _ h, ?_⟩
  unfold dt_slot
  rw [Nat.add_mod_mod]
  have hdm := Nat.div_add_mod hashv N
  have hmlt : hashv % N < N := Nat.mod_lt _ h
  have hsum : hashv + (pos + N - hashv % N) = pos + (hashv / N + 1) * N := by
    have : N * (hashv / N) + hashv % N = hashv := hdm
    ring_nf
    omega
  rw [hsum, Nat.add_mul_mod_self_right, Nat.mod_eq_of_lt hpos]

/- The emitted delete list never contains duplicates: every emission is
guarded by the uniqueness set, which contains everything emitted so far. -/
theorem gen_process_one_good (md : ℕ) (cur : List Char) (dist : ℕ) (st : GenState) (i : ℕ)
    (hnd : st.outList.Nodup) (hsub : ∀ x ∈ st.outList, x ∈ st.seen) :
    (gen_process_one md cur dist st i).outList.Nodup ∧
    ∀ x ∈ (gen_process_one md cur dist st i).outList,
      x ∈ (gen_process_one md cur dist st i).seen := by
  unfold gen_process_one
  dsimp only
  by_cases h1 : cur.eraseIdx i ∈ st.seen
  · rw [if_pos h1]
    split
    · exact ⟨hnd, hsub⟩
    · exact ⟨hnd, hsub⟩
  · rw [if_neg h1]
    by_cases h2 : st.outList.length < md
    · rw [if_pos h2]
      have hnd' : (st.outList ++ [cur.eraseIdx i]).Nodup := by
        rw [List.nodup_append]
        refine ⟨hnd, List.nodup_singleton _, ?_⟩
        intro a ha hb
        rw [List.mem_singleton] at hb
        subst hb
        exact h1 (hsub _ ha)
      have hsub' : ∀ x ∈ st.outList ++ [cur.eraseIdx i], x ∈ cur.eraseIdx i :: st.seen := by
        intro x hx
        rcases List.mem_append.mp hx with hx | hx
        · exact List.mem_cons_of_mem _ (hsub x hx)
        · rw [List.mem_singleton] at hx
          exact hx ▸ List.mem_cons_self _ _
      split
      · exact ⟨hnd', hsub'⟩
      · exact ⟨hnd', hsub'⟩
    · rw [if_neg h2]
      split
      · exact ⟨hnd, hsub⟩
      · exact ⟨hnd, hsub⟩

theorem gen_fold_idx_good (md : ℕ) (cur : List Char) (dist : ℕ) :
    ∀ (idxs : List ℕ) (st : GenState), st.outList.Nodup →
      (∀ x ∈ st.outList, x ∈ st.seen) →
      (idxs.foldl (gen_process_one md cur dist) st).outList.Nodup ∧
      ∀ x ∈ (idxs.foldl (gen_process_one md cur dist) st).outList,
        x ∈ (idxs.foldl (gen_process_one md cur dist) st).seen := by
  intro idxs
  induction idxs with
  | nil => intro st hnd hsub; exact ⟨hnd, hsub⟩
  | cons i0 rest ih =>
    intro st hnd hsub
    obtain ⟨hnd', hsub'⟩ := gen_process_one_good md cur dist st i0 hnd hsub
    exact ih (gen_process_one md cur dist st i0) hnd' hsub'

theorem gen_loop_good (D : ℤ) (md : ℕ) :
    ∀ (fuel : ℕ) (st : GenState), st.outList.Nodup →
      (∀ x ∈ st.outList, x ∈ st.seen) →
      (gen_loop D md fuel st).outList.Nodup := by
  intro fuel
  induction fuel with
  | zero => intro st hnd _; exact hnd
  | succ n ih =>
    intro st hnd hsub
    rw [gen_loop]
    cases st.pending with
    | nil => exact hnd
    | cons item rest =>
      dsimp only
      by_cases hlt : st.outList.length < md
      · rw [if_pos hlt]
        by_cases hg : (item.distance : ℤ) ≥ D ∨ item.str.length ≤ 1
        · rw [if_pos hg]
          exact ih _ hnd hsub
        · rw [if_neg hg]
          obtain ⟨hnd', hsub'⟩ := gen_fold_idx_good md item.str item.distance
            (List.range item.str.length) { st with pending := rest } hnd hsub
          exact ih _ hnd' hsub'
      · rw [if_neg hlt]
        exact hnd

theorem gen_seed_good (pfx : List Char) (D : ℤ) (md : ℕ) :
    (gen_seed pfx D md).outList.Nodup ∧
    ∀ x ∈ (gen_seed pfx D md).outList, x ∈ (gen_seed pfx D md).seen := by
  unfold gen_seed
  dsimp only
  by_cases c1 : (pfx.length : ℤ) ≤ D ∧ 0 < md
  · rw [if_pos c1]
    by_cases c2 : ([] ++ [([] : List Char)]).length < md ∧ pfx ∉ [([] : List Char)]
    · rw [if_pos c2]
      have hp : pfx ≠ [] := by
        intro hc
        exact c2.2 (by rw [hc]; exact List.mem_singleton.mpr rfl)
      constructor
      · simp [hp]
      · intro x hx
        simp only [List.nil_append, List.mem_append, List.mem_singleton] at hx
        rcases hx with hx | hx <;> simp [hx]
    · rw [if_neg c2]
      constructor
      · simp
      · intro x hx
        simp only [List.nil_append, List.mem_singleton] at hx
        simp [hx]
  · rw [if_neg c1]
    by_cases c2 : ([] : List (List Char)).length < md ∧ pfx ∉ ([] : List (List Char))
    · rw [if_pos c2]
      constructor
      · simp
      · intro x hx
        simp only [List.nil_append, List.mem_singleton] at hx
        simp [hx]
    · rw [if_neg c2]
      exact ⟨List.nodup_nil, by simp⟩

theorem generate_all_deletes_nodup (word : List Char) (D P : ℤ) (cap : ℕ) :
    (generate_all_deletes_reuse word D P cap).Nodup := by
  unfold generate_all_deletes_reuse
  split
  · exact List.nodup_nil
  · obtain ⟨hnd, hsub⟩ := gen_seed_good (c_pfx word P) D cap
    exact gen_loop_good D cap DELETE_QUEUE_CAPACITY _ hnd hsub

/- add_to_entry_pairs mirrors insert_max_freq with string keys; the same
association-list facts hold. -/
theorem atp_append_of_not_mem (w : List Char) (f : ℕ) :
    ∀ (l : List (List Char × ℕ)), w ∉ l.map Prod.fst →
      add_to_entry_pairs w f l = l ++ [(w, f)] := by
  intro l
  induction l with
  | nil => intro _; rfl
  | cons p rest ih =>
    intro hw
    obtain ⟨w', f'⟩ := p
    simp only [List.map_cons, List.mem_cons] at hw
    push_neg at hw
    rw [add_to_entry_pairs, if_neg (Ne.symm hw.1), ih hw.2]
    rfl

theorem atp_map_fst_of_mem (w : List Char) (f : ℕ) :
    ∀ (l : List (List Char × ℕ)), w ∈ l.map Prod.fst →
      (add_to_entry_pairs w f l).map Prod.fst = l.map Prod.fst := by
  intro l
  induction l with
  | nil => intro hw; simp at hw
  | cons p rest ih =>
    intro hw
    obtain ⟨w', f'⟩ := p
    by_cases he : w' = w
    · rw [add_to_entry_pairs, if_pos he]
      simp
    · rw [add_to_entry_pairs, if_neg he]
      simp only [List.map_cons, List.mem_cons] at hw
      rcases hw with hw | hw
      · exact absurd hw.symm he
      · simp only [List.map_cons, ih hw]

theorem atp_mem_iff (w : List Char) (f f0 : ℕ) :
    ∀ (l : List (List Char × ℕ)), (l.map Prod.fst).Nodup → (w, f0) ∈ l →
      ∀ p, p ∈ add_to_entry_pairs w f l ↔
        (p = (w, if f > f0 then f else f0) ∨ (p ∈ l ∧ p.1 ≠ w)) := by
  intro l
  induction l with
  | nil => intro _ hm; simp at hm
  | cons q rest ih =>
    intro hnd hm p
    obtain ⟨w', f'⟩ := q
    simp only [List.map_cons, List.nodup_cons] at hnd
    by_cases he : w' = w
    · subst he
      have hf : f' = f0 := by
        rcases List.mem_cons.mp hm with heq | hmem
        · exact (Prod.ext_iff.mp heq).2.symm
        · exact absurd (List.mem_map_of_mem Prod.fst hmem) hnd.1
      subst hf
      rw [add_to_entry_pairs, if_pos rfl]
      constructor
      · intro hp
        rcases List.mem_cons.mp hp with heq | hmem
        · exact Or.inl heq
        · refine Or.inr ⟨List.mem_cons_of_mem _ hmem, ?_⟩
          intro hpk
          exact hnd.1 (hpk ▸ List.mem_map_of_mem Prod.fst hmem)
      · intro hp
        rcases hp with heq | ⟨hmem, hne⟩
        · exact heq ▸ List.mem_cons_self _ _
        · rcases List.mem_cons.mp hmem with heq | hmem
          · exact absurd (congrArg Prod.fst heq) hne
          · exact List.mem_cons_of_mem _ hmem
    · have hm' : (w, f0) ∈ rest := by
        rcases List.mem_cons.mp hm with heq | hmem
        · exact absurd (congrArg Prod.fst heq).symm he
        · exact hmem
      rw [add_to_entry_pairs, if_neg he]
      rw [List.mem_cons, ih hnd.2 hm' p, List.mem_cons]
      constructor
      · rintro (rfl | hrec | ⟨hmem, hne⟩)
        · exact Or.inr ⟨Or.inl rfl, he⟩
        · exact Or.inl hrec
        · exact Or.inr ⟨Or.inr hmem, hne⟩
      · rintro (hrec | ⟨rfl | hmem, hne⟩)
        · exact Or.inr (Or.inl hrec)
        · exact Or.inl rfl
        · exact Or.inr (Or.inr ⟨hmem, hne⟩)

/- State predicates on the delete index. -/
def dt_full (dict : symspell_dict_t) : Prop :=
  ∀ pos < dict.table_size, dict.table pos ≠ none

def dt_no_key (dict : symspell_dict_t) (ds : List Char) : Prop :=
  ∀ pos e, dict.table pos = some e → e.delete_str ≠ ds

def dt_has_pair (dict : symspell_dict_t) (ds w : List Char) (f : ℕ) : Prop :=
  ∃ pos e, dict.table pos = some e ∧ e.delete_str = ds ∧ (w, f) ∈ e.pairs

/- The delete-index invariant relative to the (term, freq) pairs ingested so
far: every entry is probe-reachable under its key's hash; listed pairs are
sourced from processed words, carry the running maximum frequency and only
appear under that word's own delete variants; and every delete variant of
every processed word either has its entry (with the running maximum), or was
dropped because the table was full — in which case its key is absent and the
table is full, both of which are stable facts. -/
structure DTInv (h : List Char → ℕ) (dict : symspell_dict_t)
    (processed : List (List Char × ℕ)) : Prop where
  tsize_pos : 0 < dict.table_size
  reach : ∀ pos e, dict.table pos = some e → ∃ j < dict.table_size,
    (∀ j' < j, ∃ e', dict.table (dt_slot dict.table_size (h e.delete_str) j') = some e' ∧
      e'.delete_str ≠ e.delete_str) ∧
    dt_slot dict.table_size (h e.delete_str) j = pos
  pairs_nodup : ∀ pos e, dict.table pos = some e → (e.pairs.map Prod.fst).Nodup
  entries_wf : ∀ pos e, dict.table pos = some e → ∀ p ∈ e.pairs,
    (∃ q ∈ processed, str_tolower q.1 = p.1) ∧
    p.2 = max_freq_of processed p.1 ∧
    e.delete_str ∈ dels_of dict p.1
  covered : ∀ q ∈ processed, ∀ ds ∈ dels_of dict (str_tolower q.1),
    dt_has_pair dict ds (str_tolower q.1) (max_freq_of processed (str_tolower q.1)) ∨
    (dt_no_key dict ds ∧ dt_full dict)

/- Each delete key occupies at most one slot (or two reachable entries with
the same key would each have to be a foreign entry on the other's path).
Stated over the reachability property alone so that both invariants below
can use it. -/
theorem dt_key_unique {h : List Char → ℕ} {dict : symspell_dict_t}
    (hreach : ∀ pos e, dict.table pos = some e → ∃ j < dict.table_size,
      (∀ j' < j, ∃ e', dict.table (dt_slot dict.table_size (h e.delete_str) j') = some e' ∧
        e'.delete_str ≠ e.delete_str) ∧
      dt_slot dict.table_size (h e.delete_str) j = pos) :
    ∀ pos1 pos2 e1 e2, dict.table pos1 = some e1 → dict.table pos2 = some e2 →
      e1.delete_str = e2.delete_str → pos1 = pos2 := by
  intro pos1 pos2 e1 e2 h1 h2 hk
  obtain ⟨j1, hj1, hp1, hs1⟩ := hreach pos1 e1 h1
  obtain ⟨j2, hj2, hp2, hs2⟩ := hreach pos2 e2 h2
  have hh : h e1.delete_str = h e2.delete_str := by rw [hk]
  rcases lt_trichotomy j1 j2 with hlt | heq | hlt
  · exfalso
    obtain ⟨e', he', hne⟩ := hp2 j1 hlt
    rw [← hh, hs1, h1] at he'
    cases he'
    exact hne hk
  · rw [← hs1, ← hs2, heq, hh]
  · exfalso
    obtain ⟨e', he', hne⟩ := hp1 j2 hlt
    rw [hh, hs2, h2] at he'
    cases he'
    exact hne hk.symm

/- DTInv only reads the delete table and the configuration, so it transfers
across updates of the other dictionary fields. -/
theorem DTInv_transfer {h : List Char → ℕ} {d d' : symspell_dict_t}
    {processed : List (List Char × ℕ)}
    (ht : d'.table = d.table) (hts : d'.table_size = d.table_size)
    (hed : d'.max_edit_distance = d.max_edit_distance)
    (hpl : d'.prefix_length = d.prefix_length)
    (hcap : d'.delete_buffer_capacity = d.delete_buffer_capacity)
    (hinv : DTInv h d processed) : DTInv h d' processed := by
  have hdels : dels_of d' = dels_of d := by
    funext w
    unfold dels_of
    rw [hed, hpl, hcap]
  refine ⟨hts ▸ hinv.tsize_pos, ?_, ?_, ?_, ?_⟩
  · simp only [ht, hts]
    exact hinv.reach
  · simp only [ht]
    exact hinv.pairs_nodup
  · simp only [ht, hdels]
    exact hinv.entries_wf
  · have hcov := hinv.covered
    simp only [dt_has_pair, dt_no_key, dt_full] at hcov ⊢
    simp only [ht, hts, hdels]
    exact hcov

theorem DTInv_create (h : List Char → ℕ) {ed pl : ℤ} {d0 : symspell_dict_t}
    (hc : symspell_create ed pl = some d0) : DTInv h d0 [] := by
  obtain ⟨htab, _, _, hts⟩ := symspell_create_fields hc
  refine ⟨hts, ?_, ?_, ?_, ?_⟩
  · intro pos e he
    rw [htab] at he
    cases he
  · intro pos e he
    rw [htab] at he
    cases he
  · intro pos e he
    rw [htab] at he
    cases he
  · intro q hq
    simp at hq

/- Probe outcome lemmas for add_delete: found, create, drop. -/
theorem add_delete_aux_found (dict : symspell_dict_t) (ds w : List Char)
    (f hashv jt : ℕ) (e : delete_entry_t)
    (hmatch : dict.table (dt_slot dict.table_size hashv jt) = some e)
    (hkey : e.delete_str = ds)
    (hpath : ∀ j' < jt, ∃ e', dict.table (dt_slot dict.table_size hashv j') = some e' ∧
      e'.delete_str ≠ ds) :
    ∀ fuel j0, j0 ≤ jt → jt < j0 + fuel →
      add_delete_aux dict ds w f hashv j0 fuel =
        { dict with
            table := Function.update dict.table (dt_slot dict.table_size hashv jt)
              (some (add_to_entry e w f)) } := by
  intro fuel
  induction fuel with
  | zero => intro j0 hle hlt; omega
  | succ n ih =>
    intro j0 hle hlt
    rw [add_delete_aux]
    by_cases hj : j0 = jt
    · subst hj
      rw [hmatch]
      dsimp only
      rw [if_pos hkey]
    · obtain ⟨e', he', hne⟩ := hpath j0 (lt_of_le_of_ne hle hj)
      rw [he']
      dsimp only
      rw [if_neg hne]
      exact ih (j0 + 1) (by omega) (by omega)

theorem add_delete_aux_create (dict : symspell_dict_t) (ds w : List Char)
    (f hashv jt : ℕ)
    (hempty : dict.table (dt_slot dict.table_size hashv jt) = none)
    (hpath : ∀ j' < jt, ∃ e', dict.table (dt_slot dict.table_size hashv j') = some e' ∧
      e'.delete_str ≠ ds) :
    ∀ fuel j0, j0 ≤ jt → jt < j0 + fuel →
      add_delete_aux dict ds w f hashv j0 fuel =
        { dict with
            table := Function.update dict.table (dt_slot dict.table_size hashv jt)
              (some ⟨ds, [(w, f)]⟩),
            entry_count := dict.entry_count + 1 } := by
  intro fuel
  induction fuel with
  | zero => intro j0 hle hlt; omega
  | succ n ih =>
    intro j0 hle hlt
    rw [add_delete_aux]
    by_cases hj : j0 = jt
    · subst hj
      rw [hempty]
    · obtain ⟨e', he', hne⟩ := hpath j0 (lt_of_le_of_ne hle hj)
      rw [he']
      dsimp only
      rw [if_neg hne]
      exact ih (j0 + 1) (by omega) (by omega)

theorem add_delete_aux_drop (dict : symspell_dict_t) (ds w : List Char)
    (f hashv : ℕ)
    (hall : ∀ j, ∃ e', dict.table (dt_slot dict.table_size hashv j) = some e' ∧
      e'.delete_str ≠ ds) :
    ∀ fuel j0, add_delete_aux dict ds w f hashv j0 fuel = dict := by
  intro fuel
  induction fuel with
  | zero => intro j0; rfl
  | succ n ih =>
    intro j0
    rw [add_delete_aux]
    obtain ⟨e', he', hne⟩ := hall j0
    rw [he']
    dsimp only
    rw [if_neg hne]
    exact ih (j0 + 1)

theorem atp_nodup (w : List Char) (f : ℕ) (l : List (List Char × ℕ))
    (hnd : (l.map Prod.fst).Nodup) :
    ((add_to_entry_pairs w f l).map Prod.fst).Nodup := by
  by_cases hw : w ∈ l.map Prod.fst
  · rw [atp_map_fst_of_mem w f l hw]
    exact hnd
  · rw [atp_append_of_not_mem w f l hw, List.map_append]
    rw [List.nodup_append]
    refine ⟨hnd, List.nodup_singleton _, ?_⟩
    intro a ha hb
    rw [List.map_singleton, List.mem_singleton] at hb
    subst hb
    exact hw ha

theorem atp_mem_of_ne (w : List Char) (f : ℕ) :
    ∀ (l : List (List Char × ℕ)) (p : List Char × ℕ), p ∈ l → p.1 ≠ w →
      p ∈ add_to_entry_pairs w f l := by
  intro l
  induction l with
  | nil => intro p hp _; cases hp
  | cons q rest ih =>
    intro p hp hne
    obtain ⟨w', f'⟩ := q
    by_cases he : w' = w
    · rw [add_to_entry_pairs, if_pos he]
      rcases List.mem_cons.mp hp with heq | hmem
      · exact absurd (congrArg Prod.fst heq |>.trans he) hne
      · exact List.mem_cons_of_mem _ hmem
    · rw [add_to_entry_pairs, if_neg he]
      rcases List.mem_cons.mp hp with heq | hmem
      · exact heq ▸ List.mem_cons_self _ _
      · exact List.mem_cons_of_mem _ (ih p hmem hne)

/- Projection helpers for the record shapes produced by add_delete. -/
@[simp] theorem add_to_entry_key (e : delete_entry_t) (w : List Char) (f : ℕ) :
    (add_to_entry e w f).delete_str = e.delete_str := rfl

@[simp] theorem add_to_entry_pairs_eq (e : delete_entry_t) (w : List Char) (f : ℕ) :
    (add_to_entry e w f).pairs = add_to_entry_pairs w f e.pairs := rfl

@[simp] theorem sd_updt_table (d : symspell_dict_t) (tb : ℕ → Option delete_entry_t) :
    ({ d with table := tb } : symspell_dict_t).table = tb := rfl

@[simp] theorem sd_updt_tsize (d : symspell_dict_t) (tb : ℕ → Option delete_entry_t) :
    ({ d with table := tb } : symspell_dict_t).table_size = d.table_size := rfl

@[simp] theorem sd_updt_dels (d : symspell_dict_t) (tb : ℕ → Option delete_entry_t)
    (w : List Char) : dels_of ({ d with table := tb } : symspell_dict_t) w = dels_of d w := rfl

@[simp] theorem sd_updtec_table (d : symspell_dict_t) (tb : ℕ → Option delete_entry_t)
    (n : ℕ) : ({ d with table := tb, entry_count := n } : symspell_dict_t).table = tb := rfl

@[simp] theorem sd_updtec_tsize (d : symspell_dict_t) (tb : ℕ → Option delete_entry_t)
    (n : ℕ) :
    ({ d with table := tb, entry_count := n } : symspell_dict_t).table_size = d.table_size := rfl

@[simp] theorem sd_updtec_dels (d : symspell_dict_t) (tb : ℕ → Option delete_entry_t)
    (n : ℕ) (w : List Char) :
    dels_of ({ d with table := tb, entry_count := n } : symspell_dict_t) w = dels_of d w := rfl

/- The mid-fold invariant while the delete variants of one new (word, freq)
pair are being added: entries under keys in `done` already carry the merged
frequency for `w`; everything else still reflects `processed` alone. -/
structure DTMid (h : List Char → ℕ) (dict : symspell_dict_t)
    (processed : List (List Char × ℕ)) (w : List Char) (fr : ℕ)
    (done : List (List Char)) : Prop where
  tsize_pos : 0 < dict.table_size
  reach : ∀ pos e, dict.table pos = some e → ∃ j < dict.table_size,
    (∀ j' < j, ∃ e', dict.table (dt_slot dict.table_size (h e.delete_str) j') = some e' ∧
      e'.delete_str ≠ e.delete_str) ∧
    dt_slot dict.table_size (h e.delete_str) j = pos
  pairs_nodup : ∀ pos e, dict.table pos = some e → (e.pairs.map Prod.fst).Nodup
  upd : ∀ pos e, dict.table pos = some e → ∀ p ∈ e.pairs, p.1 = w →
    e.delete_str ∈ done → p.2 = max (max_freq_of processed w) fr
  old : ∀ pos e, dict.table pos = some e → ∀ p ∈ e.pairs,
    ¬(p.1 = w ∧ e.delete_str ∈ done) →
    (∃ q ∈ processed, str_tolower q.1 = p.1) ∧
    p.2 = max_freq_of processed p.1 ∧
    e.delete_str ∈ dels_of dict p.1
  covered_old : ∀ q ∈ processed, ∀ ds ∈ dels_of dict (str_tolower q.1),
    dt_has_pair dict ds (str_tolower q.1)
      (if str_tolower q.1 = w ∧ ds ∈ done then max (max_freq_of processed w) fr
       else max_freq_of processed (str_tolower q.1)) ∨
    (dt_no_key dict ds ∧ dt_full dict)
  covered_new : ∀ ds ∈ done,
    dt_has_pair dict ds w (max (max_freq_of processed w) fr) ∨
    (dt_no_key dict ds ∧ dt_full dict)

theorem DTMid_enter {h : List Char → ℕ} {dict : symspell_dict_t}
    {processed : List (List Char × ℕ)} (hinv : DTInv h dict processed)
    (w : List Char) (fr : ℕ) : DTMid h dict processed w fr [] := by
  refine ⟨hinv.tsize_pos, hinv.reach, hinv.pairs_nodup, ?_, ?_, ?_, ?_⟩
  · intro pos e he p hp _ hds
    cases hds
  · intro pos e he p hp _
    exact hinv.entries_wf pos e he p hp
  · intro q hq ds hds
    have hcov := hinv.covered q hq ds hds
    simpa using hcov
  · intro ds hds
    cases hds

theorem DTMid_exit {h : List Char → ℕ} {dict : symspell_dict_t}
    {processed : List (List Char × ℕ)} {w : List Char} {fr : ℕ}
    (t : List Char) (hw : w = str_tolower t)
    (hmid : DTMid h dict processed w fr (dels_of dict w)) :
    DTInv h dict (processed ++ [(t, fr)]) := by
  have hmaxw : max_freq_of (processed ++ [(t, fr)]) w =
      max (max_freq_of processed w) fr := by
    apply max_freq_of_append_match
    exact hw.symm
  have hmaxo : ∀ x, x ≠ w → max_freq_of (processed ++ [(t, fr)]) x =
      max_freq_of processed x := by
    intro x hx
    apply max_freq_of_append_nonmatch
    rw [← hw]
    exact fun hc => hx hc.symm
  refine ⟨hmid.tsize_pos, hmid.reach, hmid.pairs_nodup, ?_, ?_⟩
  · intro pos e he p hp
    by_cases hpw : p.1 = w
    · by_cases hdk : e.delete_str ∈ dels_of dict w
      · refine ⟨⟨(t, fr), List.mem_append_right _ (List.mem_singleton.mpr rfl),
          by rw [← hw, hpw]⟩, ?_, ?_⟩
        · rw [hpw, hmaxw]
          exact hmid.upd pos e he p hp hpw hdk
        · rw [hpw]
          exact hdk
      · have hold := hmid.old pos e he p hp (fun hc => hdk hc.2)
        exact absurd (hpw ▸ hold.2.2) hdk
    · have hold := hmid.old pos e he p hp (fun hc => hpw hc.1)
      refine ⟨?_, ?_, hold.2.2⟩
      · obtain ⟨q, hq, hqe⟩ := hold.1
        exact ⟨q, List.mem_append_left _ hq, hqe⟩
      · rw [hmaxo p.1 hpw]
        exact hold.2.1
  · intro q hq ds hds
    rcases List.mem_append.mp hq with hq | hq
    · by_cases hqw : str_tolower q.1 = w
      · rw [hqw] at hds ⊢
        rw [hmaxw]
        exact hmid.covered_new ds hds
      · have hcov := hmid.covered_old q hq ds hds
        rw [if_neg (fun hc => hqw hc.1)] at hcov
        rw [hmaxo _ hqw]
        exact hcov
    · rw [List.mem_singleton] at hq
      subst hq
      have hts : str_tolower (t, fr).1 = w := hw.symm
      rw [hts] at hds ⊢
      rw [hmaxw]
      exact hmid.covered_new ds hds

/- Reachability is stable under updating an occupied slot with an entry of
the same key. -/
theorem dt_reach_update_samekey {h : List Char → ℕ} {dict : symspell_dict_t}
    (hreach : ∀ pos e, dict.table pos = some e → ∃ j < dict.table_size,
      (∀ j' < j, ∃ e', dict.table (dt_slot dict.table_size (h e.delete_str) j') = some e' ∧
        e'.delete_str ≠ e.delete_str) ∧
      dt_slot dict.table_size (h e.delete_str) j = pos)
    (pos0 : ℕ) (e0 e0' : delete_entry_t)
    (hpos0 : dict.table pos0 = some e0) (hkey : e0'.delete_str = e0.delete_str) :
    ∀ pos e, Function.update dict.table pos0 (some e0') pos = some e →
      ∃ j < dict.table_size,
        (∀ j' < j, ∃ e', Function.update dict.table pos0 (some e0')
            (dt_slot dict.table_size (h e.delete_str) j') = some e' ∧
          e'.delete_str ≠ e.delete_str) ∧
        dt_slot dict.table_size (h e.delete_str) j = pos := by
  intro pos e he
  by_cases hpe : pos = pos0
  · subst hpe
    rw [Function.update_same] at he
    have he' : e = e0' := (Option.some.inj he).symm
    subst he'
    obtain ⟨j, hjlt, hpath, hslot⟩ := hreach pos e0 hpos0
    rw [← hkey] at hpath hslot
    refine ⟨j, hjlt, ?_, hslot⟩
    intro j' hj'
    obtain ⟨e'', he'', hne''⟩ := hpath j' hj'
    have hslotne : dt_slot dict.table_size (h e.delete_str) j' ≠ pos := by
      intro hc
      rw [← hslot] at hc
      have := dt_slot_inj dict.table_size (h e.delete_str) (lt_trans hj' hjlt) hjlt hc
      omega
    rw [Function.update_noteq hslotne]
    exact ⟨e'', he'', hne''⟩
  · rw [Function.update_noteq hpe] at he
    obtain ⟨j, hjlt, hpath, hslot⟩ := hreach pos e he
    refine ⟨j, hjlt, ?_, hslot⟩
    intro j' hj'
    obtain ⟨e'', he'', hne''⟩ := hpath j' hj'
    by_cases hsp : dt_slot dict.table_size (h e.delete_str) j' = pos0
    · rw [hsp, Function.update_same]
      refine ⟨e0', rfl, ?_⟩
      rw [hkey]
      rw [hsp, hpos0] at he''
      have : e'' = e0 := Option.some.inj he''.symm
      exact this ▸ hne''
    · rw [Function.update_noteq hsp]
      exact ⟨e'', he'', hne''⟩

/- Reachability is stable under creating a fresh entry in the first empty
slot of its own probe sequence. -/
theorem dt_reach_update_empty {h : List Char → ℕ} {dict : symspell_dict_t}
    (hreach : ∀ pos e, dict.table pos = some e → ∃ j < dict.table_size,
      (∀ j' < j, ∃ e', dict.table (dt_slot dict.table_size (h e.delete_str) j') = some e' ∧
        e'.delete_str ≠ e.delete_str) ∧
      dt_slot dict.table_size (h e.delete_str) j = pos)
    (ds0 : List Char) (prs : List (List Char × ℕ)) (jt : ℕ)
    (hjt : jt < dict.table_size)
    (hempty : dict.table (dt_slot dict.table_size (h ds0) jt) = none)
    (hno : dt_no_key dict ds0)
    (hpathmin : ∀ j' < jt, dict.table (dt_slot dict.table_size (h ds0) j') ≠ none) :
    ∀ pos e, Function.update dict.table (dt_slot dict.table_size (h ds0) jt)
        (some ⟨ds0, prs⟩) pos = some e →
      ∃ j < dict.table_size,
        (∀ j' < j, ∃ e', Function.update dict.table (dt_slot dict.table_size (h ds0) jt)
            (some ⟨ds0, prs⟩) (dt_slot dict.table_size (h e.delete_str) j') = some e' ∧
          e'.delete_str ≠ e.delete_str) ∧
        dt_slot dict.table_size (h e.delete_str) j = pos := by
  intro pos e he
  by_cases hpe : pos = dt_slot dict.table_size (h ds0) jt
  · subst hpe
    rw [Function.update_same] at he
    have he' : e = ⟨ds0, prs⟩ := (Option.some.inj he).symm
    subst he'
    refine ⟨jt, hjt, ?_, rfl⟩
    intro j' hj'
    have hslotne : dt_slot dict.table_size (h ds0) j' ≠
        dt_slot dict.table_size (h ds0) jt := by
      intro hc
      have := dt_slot_inj dict.table_size (h ds0) (lt_trans hj' hjt) hjt hc
      omega
    rw [Function.update_noteq hslotne]
    obtain ⟨e', he'⟩ := Option.ne_none_iff_exists'.mp (hpathmin j' hj')
    exact ⟨e', he', hno _ e' he'⟩
  · rw [Function.update_noteq hpe] at he
    obtain ⟨j, hjlt, hpath, hslot⟩ := hreach pos e he
    refine ⟨j, hjlt, ?_, hslot⟩
    intro j' hj'
    obtain ⟨e'', he'', hne''⟩ := hpath j' hj'
    have hsp : dt_slot dict.table_size (h e.delete_str) j' ≠
        dt_slot dict.table_size (h ds0) jt := by
      intro hc
      rw [hc, hempty] at he''
      cases he''
    rw [Function.update_noteq hsp]
    exact ⟨e'', he'', hne''⟩

theorem dt_no_key_update_samekey {dict : symspell_dict_t} {pos0 : ℕ}
    {e0 e0' : delete_entry_t} {ds : List Char}
    (hpos0 : dict.table pos0 = some e0) (hkey : e0'.delete_str = e0.delete_str)
    (hnk : dt_no_key dict ds) :
    dt_no_key ({ dict with table := Function.update dict.table pos0 (some e0') }) ds := by
  intro pos e he
  simp only [sd_updt_table] at he
  by_cases hpe : pos = pos0
  · subst hpe
    rw [Function.update_same] at he
    have he' : e = e0' := (Option.some.inj he).symm
    rw [he', hkey]
    exact hnk pos e0 hpos0
  · rw [Function.update_noteq hpe] at he
    exact hnk pos e he

theorem dt_full_update {dict : symspell_dict_t} {pos0 : ℕ} {v : delete_entry_t}
    (hfl : dt_full dict) :
    dt_full ({ dict with table := Function.update dict.table pos0 (some v) }) := by
  intro pos hlt
  simp only [sd_updt_table, sd_updt_tsize] at hlt ⊢
  by_cases hpe : pos = pos0
  · subst hpe
    rw [Function.update_same]
    exact fun hc => Option.noConfusion hc
  · rw [Function.update_noteq hpe]
    exact hfl pos hlt

/- Case 1 of one add_delete step: the key already has an entry, which gets
merged in place. -/
theorem DTMid_step_found {h : List Char → ℕ} {dict : symspell_dict_t}
    {processed : List (List Char × ℕ)} {w : List Char} {fr : ℕ}
    {done : List (List Char)}
    (hmid : DTMid h dict processed w fr done) (ds0 : List Char)
    (hds0 : ds0 ∈ dels_of dict w) (hnotdone : ds0 ∉ done)
    (pos0 : ℕ) (e0 : delete_entry_t)
    (hpos0 : dict.table pos0 = some e0) (hkey0 : e0.delete_str = ds0) :
    DTMid h (add_delete h dict ds0 w fr) processed w fr (done ++ [ds0]) := by
  have huniq := dt_key_unique hmid.reach
  obtain ⟨j, hjlt, hpath0, hslot0⟩ := hmid.reach pos0 e0 hpos0
  have hkeyh : h e0.delete_str = h ds0 := by rw [hkey0]
  have hmatch : dict.table (dt_slot dict.table_size (h ds0) j) = some e0 := by
    rw [← hkeyh, hslot0]
    exact hpos0
  have hpath : ∀ j' < j, ∃ e', dict.table (dt_slot dict.table_size (h ds0) j') = some e' ∧
      e'.delete_str ≠ ds0 := by
    intro j' hj'
    obtain ⟨e', he', hne⟩ := hpath0 j' hj'
    rw [hkeyh] at he'
    exact ⟨e', he', hkey0 ▸ hne⟩
  have hslot0' : dt_slot dict.table_size (h ds0) j = pos0 := by
    rw [← hkeyh]
    exact hslot0
  have hstep : add_delete h dict ds0 w fr =
      { dict with table := Function.update dict.table pos0 (some (add_to_entry e0 w fr)) } := by
    have hfound := add_delete_aux_found dict ds0 w fr (h ds0) j e0 hmatch hkey0 hpath
      dict.table_size 0 (by omega) (by omega)
    rw [add_delete, hfound, hslot0']
  have hnodup0 := hmid.pairs_nodup pos0 e0 hpos0
  have hwlisted : (∀ q ∈ processed, str_tolower q.1 ≠ w) ∨
      (w, max_freq_of processed w) ∈ e0.pairs := by
    by_cases hcase : ∃ q ∈ processed, str_tolower q.1 = w
    · obtain ⟨q, hq, hqw⟩ := hcase
      right
      have hcov := hmid.covered_old q hq ds0 (by rw [hqw]; exact hds0)
      rw [if_neg (fun hc => hnotdone hc.2)] at hcov
      rcases hcov with ⟨pos1, e1, he1, hk1, hmem1⟩ | ⟨hnk, _⟩
      · have hpe : pos1 = pos0 := huniq pos1 pos0 e1 e0 he1 hpos0 (by rw [hk1, hkey0])
        subst hpe
        have he10 : e1 = e0 := Option.some.inj (he1.symm.trans hpos0)
        rw [hqw] at hmem1
        rw [he10] at hmem1
        exact hmem1
      · exact absurd hkey0 (hnk pos0 e0 hpos0)
    · left
      push_neg at hcase
      exact hcase
  have hnewpair : (w, max (max_freq_of processed w) fr) ∈
      add_to_entry_pairs w fr e0.pairs := by
    by_cases hwmem : w ∈ e0.pairs.map Prod.fst
    · obtain ⟨pp, hpmem, hpfst⟩ := List.mem_map.mp hwmem
      obtain ⟨w1, f_old⟩ := pp
      have hw1 : w1 = w := hpfst
      rw [hw1] at hpmem
      have hfold : f_old = max_freq_of processed w := by
        have hold := hmid.old pos0 e0 hpos0 (w, f_old) hpmem
          (fun hc => hnotdone (hkey0 ▸ hc.2))
        exact hold.2.1
      have hmm := (atp_mem_iff w fr f_old e0.pairs hnodup0 hpmem
        (w, if fr > f_old then fr else f_old)).mpr (Or.inl rfl)
      have hval : (if fr > f_old then fr else f_old) = max (max_freq_of processed w) fr := by
        rw [hfold]
        split <;> omega
      exact hval ▸ hmm
    · rw [atp_append_of_not_mem w fr e0.pairs hwmem]
      rcases hwlisted with hnp | hlisted
      · rw [max_freq_of_not_occ processed w hnp]
        simp
      · exact absurd (List.mem_map_of_mem Prod.fst hlisted) hwmem
  rw [hstep]
  refine ⟨hmid.tsize_pos, ?_, ?_, ?_, ?_, ?_, ?_⟩
  · simp only [sd_updt_table, sd_updt_tsize]
    exact dt_reach_update_samekey hmid.reach pos0 e0 (add_to_entry e0 w fr) hpos0 rfl
  · simp only [sd_updt_table]
    intro pos e he
    by_cases hpe : pos = pos0
    · subst hpe
      rw [Function.update_same] at he
      have he' : e = add_to_entry e0 w fr := (Option.some.inj he).symm
      rw [he']
      simp only [add_to_entry_pairs_eq]
      exact atp_nodup _ _ _ hnodup0
    · rw [Function.update_noteq hpe] at he
      exact hmid.pairs_nodup pos e he
  · simp only [sd_updt_table]
    intro pos e he p hp hpw hdone'
    by_cases hpe : pos = pos0
    · subst hpe
      rw [Function.update_same] at he
      have he' : e = add_to_entry e0 w fr := (Option.some.inj he).symm
      rw [he'] at hp
      simp only [add_to_entry_pairs_eq] at hp
      by_cases hwmem : w ∈ e0.pairs.map Prod.fst
      · obtain ⟨pp, hpmem, hpfst⟩ := List.mem_map.mp hwmem
        obtain ⟨w1, f_old⟩ := pp
        have hw1 : w1 = w := hpfst
        rw [hw1] at hpmem
        have hfold : f_old = max_freq_of processed w := by
          have hold := hmid.old pos e0 hpos0 (w, f_old) hpmem
            (fun hc => hnotdone (hkey0 ▸ hc.2))
          exact hold.2.1
        rcases (atp_mem_iff w fr f_old e0.pairs hnodup0 hpmem p).mp hp with heq | ⟨_, hne⟩
        · rw [heq]
          show (if fr > f_old then fr else f_old) = max (max_freq_of processed w) fr
          rw [hfold]
          split <;> omega
        · exact absurd hpw hne
      · rw [atp_append_of_not_mem w fr e0.pairs hwmem] at hp
        rcases List.mem_append.mp hp with hp | hp
        · exact absurd (hpw ▸ List.mem_map_of_mem Prod.fst hp) hwmem
        · rw [List.mem_singleton] at hp
          rw [hp]
          show fr = max (max_freq_of processed w) fr
          rcases hwlisted with hnp | hlisted
          · rw [max_freq_of_not_occ processed w hnp]
            omega
          · exact absurd (List.mem_map_of_mem Prod.fst hlisted) hwmem
    · rw [Function.update_noteq hpe] at he
      rcases List.mem_append.mp hdone' with hdone | hds0eq
      · exact hmid.upd pos e he p hp hpw hdone
      · rw [List.mem_singleton] at hds0eq
        exact absurd (huniq pos pos0 e e0 he hpos0 (by rw [hds0eq, hkey0])) hpe
  · simp only [sd_updt_table, sd_updt_dels]
    intro pos e he p hp hguard
    by_cases hpe : pos = pos0
    · subst hpe
      rw [Function.update_same] at he
      have he' : e = add_to_entry e0 w fr := (Option.some.inj he).symm
      rw [he'] at hp hguard ⊢
      simp only [add_to_entry_pairs_eq] at hp
      simp only [add_to_entry_key] at hguard ⊢
      have hpnw : p.1 ≠ w := by
        intro hc
        exact hguard ⟨hc, by
          rw [hkey0]
          exact List.mem_append_right _ (List.mem_singleton.mpr rfl)⟩
      have hpold : p ∈ e0.pairs := by
        by_cases hwmem : w ∈ e0.pairs.map Prod.fst
        · obtain ⟨pp, hpmem, hpfst⟩ := List.mem_map.mp hwmem
          obtain ⟨w1, f_old⟩ := pp
          have hw1 : w1 = w := hpfst
          rw [hw1] at hpmem
          rcases (atp_mem_iff w fr f_old e0.pairs hnodup0 hpmem p).mp hp with heq | ⟨hm, _⟩
          · exact absurd (by rw [heq]) hpnw
          · exact hm
        · rw [atp_append_of_not_mem w fr e0.pairs hwmem] at hp
          rcases List.mem_append.mp hp with hp | hp
          · exact hp
          · rw [List.mem_singleton] at hp
            exact absurd (by rw [hp]) hpnw
      exact hmid.old pos e0 hpos0 p hpold (fun hc => hpnw hc.1)
    · rw [Function.update_noteq hpe] at he
      refine hmid.old pos e he p hp ?_
      intro hc
      exact hguard ⟨hc.1, List.mem_append_left _ hc.2⟩
  · simp only [sd_updt_dels]
    intro q hq ds hds
    by_cases hspecial : str_tolower q.1 = w ∧ ds = ds0
    · obtain ⟨hqw, hdseq⟩ := hspecial
      left
      refine ⟨pos0, add_to_entry e0 w fr, ?_, ?_, ?_⟩
      · simp only [sd_updt_table]
        exact Function.update_same _ _ _
      · simp only [add_to_entry_key]
        rw [hkey0, hdseq]
      · rw [if_pos ⟨hqw, by
          rw [hdseq]
          exact List.mem_append_right _ (List.mem_singleton.mpr rfl)⟩]
        simp only [add_to_entry_pairs_eq]
        rw [hqw]
        exact hnewpair
    · have hcond : (str_tolower q.1 = w ∧ ds ∈ done ++ [ds0]) ↔
          (str_tolower q.1 = w ∧ ds ∈ done) := by
        constructor
        · rintro ⟨h1, h2⟩
          rcases List.mem_append.mp h2 with h2 | h2
          · exact ⟨h1, h2⟩
          · rw [List.mem_singleton] at h2
            exact absurd ⟨h1, h2⟩ hspecial
        · rintro ⟨h1, h2⟩
          exact ⟨h1, List.mem_append_left _ h2⟩
      rw [if_congr hcond rfl rfl]
      have hcov := hmid.covered_old q hq ds hds
      rcases hcov with ⟨pos1, e1, he1, hk1, hmem1⟩ | ⟨hnk, hfl⟩
      · left
        by_cases hpe : pos1 = pos0
        · subst hpe
          have he10 : e1 = e0 := Option.some.inj (he1.symm.trans hpos0)
          have hdseq : ds = ds0 := by rw [← hk1, he10, hkey0]
          have hqnw : str_tolower q.1 ≠ w := fun hc => hspecial ⟨hc, hdseq⟩
          rw [if_neg (fun hc => hqnw hc.1)] at hmem1 ⊢
          refine ⟨pos1, add_to_entry e0 w fr, ?_, ?_, ?_⟩
          · simp only [sd_updt_table]
            exact Function.update_same _ _ _
          · simp only [add_to_entry_key]
            rw [← he10]
            exact hk1
          · simp only [add_to_entry_pairs_eq]
            rw [he10] at hmem1
            exact atp_mem_of_ne w fr e0.pairs _ hmem1 hqnw
        · refine ⟨pos1, e1, ?_, hk1, hmem1⟩
          simp only [sd_updt_table]
          rw [Function.update_noteq hpe]
          exact he1
      · right
        exact ⟨dt_no_key_update_samekey hpos0 rfl hnk, dt_full_update hfl⟩
  · intro ds hds'
    rcases List.mem_append.mp hds' with hdsdone | hdseq
    · have hcov := hmid.covered_new ds hdsdone
      rcases hcov with ⟨pos1, e1, he1, hk1, hmem1⟩ | ⟨hnk, hfl⟩
      · left
        by_cases hpe : pos1 = pos0
        · subst hpe
          exfalso
          have he10 : e1 = e0 := Option.some.inj (he1.symm.trans hpos0)
          have hdseq : ds = ds0 := by rw [← hk1, he10, hkey0]
          exact hnotdone (hdseq ▸ hdsdone)
        · refine ⟨pos1, e1, ?_, hk1, hmem1⟩
          simp only [sd_updt_table]
          rw [Function.update_noteq hpe]
          exact he1
      · right
        exact ⟨dt_no_key_update_samekey hpos0 rfl hnk, dt_full_update hfl⟩
    · rw [List.mem_singleton] at hdseq
      subst hdseq
      left
      refine ⟨pos0, add_to_entry e0 w fr, ?_, ?_, ?_⟩
      · simp only [sd_updt_table]
        exact Function.update_same _ _ _
      · simp only [add_to_entry_key]
        exact hkey0
      · simp only [add_to_entry_pairs_eq]
        exact hnewpair

/- Case 2 of one add_delete step: the key is absent and the probe sequence
reaches an empty slot, where a fresh entry is created. -/
theorem DTMid_step_create {h : List Char → ℕ} {dict : symspell_dict_t}
    {processed : List (List Char × ℕ)} {w : List Char} {fr : ℕ}
    {done : List (List Char)}
    (hmid : DTMid h dict processed w fr done) (ds0 : List Char)
    (hds0 : ds0 ∈ dels_of dict w) (hnk : dt_no_key dict ds0)
    (jt : ℕ) (hjt : jt < dict.table_size)
    (hempty : dict.table (dt_slot dict.table_size (h ds0) jt) = none)
    (hpathmin : ∀ j' < jt, dict.table (dt_slot dict.table_size (h ds0) j') ≠ none) :
    DTMid h (add_delete h dict ds0 w fr) processed w fr (done ++ [ds0]) := by
  have hpath : ∀ j' < jt, ∃ e', dict.table (dt_slot dict.table_size (h ds0) j') = some e' ∧
      e'.delete_str ≠ ds0 := by
    intro j' hj'
    obtain ⟨e', he'⟩ := Option.ne_none_iff_exists'.mp (hpathmin j' hj')
    exact ⟨e', he', hnk _ e' he'⟩
  have hstep : add_delete h dict ds0 w fr =
      { dict with
          table := Function.update dict.table (dt_slot dict.table_size (h ds0) jt)
            (some ⟨ds0, [(w, fr)]⟩),
          entry_count := dict.entry_count + 1 } := by
    have hc := add_delete_aux_create dict ds0 w fr (h ds0) jt hempty hpath
      dict.table_size 0 (by omega) (by omega)
    rw [add_delete, hc]
  have hposlt : dt_slot dict.table_size (h ds0) jt < dict.table_size :=
    dt_slot_lt _ _ _ hmid.tsize_pos
  have hwnp : ∀ q ∈ processed, str_tolower q.1 ≠ w := by
    intro q hq hqw
    have hcov := hmid.covered_old q hq ds0 (by rw [hqw]; exact hds0)
    rcases hcov with ⟨pos1, e1, he1, hk1, _⟩ | ⟨_, hfl⟩
    · exact hnk pos1 e1 he1 hk1
    · exact hfl _ hposlt hempty
  have hmf0 : max_freq_of processed w = 0 := max_freq_of_not_occ processed w hwnp
  have hmax : max (max_freq_of processed w) fr = fr := by
    rw [hmf0]
    omega
  rw [hstep]
  refine ⟨hmid.tsize_pos, ?_, ?_, ?_, ?_, ?_, ?_⟩
  · simp only [sd_updtec_table, sd_updtec_tsize]
    exact dt_reach_update_empty hmid.reach ds0 [(w, fr)] jt hjt hempty hnk hpathmin
  · simp only [sd_updtec_table]
    intro pos e he
    by_cases hpe : pos = dt_slot dict.table_size (h ds0) jt
    · subst hpe
      rw [Function.update_same] at he
      have he' : e = ⟨ds0, [(w, fr)]⟩ := (Option.some.inj he).symm
      rw [he']
      simp
    · rw [Function.update_noteq hpe] at he
      exact hmid.pairs_nodup pos e he
  · simp only [sd_updtec_table]
    intro pos e he p hp hpw hdone'
    by_cases hpe : pos = dt_slot dict.table_size (h ds0) jt
    · subst hpe
      rw [Function.update_same] at he
      have he' : e = ⟨ds0, [(w, fr)]⟩ := (Option.some.inj he).symm
      rw [he'] at hp
      have hp' : p = (w, fr) := by simpa using hp
      rw [hp']
      show fr = max (max_freq_of processed w) fr
      omega
    · rw [Function.update_noteq hpe] at he
      rcases List.mem_append.mp hdone' with hdone | hds0eq
      · exact hmid.upd pos e he p hp hpw hdone
      · rw [List.mem_singleton] at hds0eq
        exact absurd hds0eq (hnk pos e he)
  · simp only [sd_updtec_table, sd_updtec_dels]
    intro pos e he p hp hguard
    by_cases hpe : pos = dt_slot dict.table_size (h ds0) jt
    · subst hpe
      rw [Function.update_same] at he
      have he' : e = ⟨ds0, [(w, fr)]⟩ := (Option.some.inj he).symm
      exfalso
      rw [he'] at hp hguard
      have hp' : p = (w, fr) := by simpa using hp
      apply hguard
      refine ⟨by rw [hp'], ?_⟩
      show ds0 ∈ done ++ [ds0]
      exact List.mem_append_right _ (List.mem_singleton.mpr rfl)
    · rw [Function.update_noteq hpe] at he
      refine hmid.old pos e he p hp ?_
      intro hc
      exact hguard ⟨hc.1, List.mem_append_left _ hc.2⟩
  · simp only [sd_updtec_dels]
    intro q hq ds hds
    have hqnw : str_tolower q.1 ≠ w := hwnp q hq
    rw [if_neg (fun hc => hqnw hc.1)]
    have hcov := hmid.covered_old q hq ds hds
    rw [if_neg (fun hc => hqnw hc.1)] at hcov
    rcases hcov with ⟨pos1, e1, he1, hk1, hmem1⟩ | ⟨_, hfl⟩
    · left
      have hpe : pos1 ≠ dt_slot dict.table_size (h ds0) jt := by
        intro hc
        rw [hc, hempty] at he1
        cases he1
      refine ⟨pos1, e1, ?_, hk1, hmem1⟩
      simp only [sd_updtec_table]
      rw [Function.update_noteq hpe]
      exact he1
    · exact absurd hempty (hfl _ hposlt)
  · intro ds hds'
    rcases List.mem_append.mp hds' with hdsdone | hdseq
    · have hcov := hmid.covered_new ds hdsdone
      rcases hcov with ⟨pos1, e1, he1, hk1, hmem1⟩ | ⟨_, hfl⟩
      · left
        have hpe : pos1 ≠ dt_slot dict.table_size (h ds0) jt := by
          intro hc
          rw [hc, hempty] at he1
          cases he1
        refine ⟨pos1, e1, ?_, hk1, hmem1⟩
        simp only [sd_updtec_table]
        rw [Function.update_noteq hpe]
        exact he1
      · exact absurd hempty (hfl _ hposlt)
    · rw [List.mem_singleton] at hdseq
      subst hdseq
      left
      refine ⟨dt_slot dict.table_size (h ds) jt, ⟨ds, [(w, fr)]⟩, ?_, rfl, ?_⟩
      · simp only [sd_updtec_table]
        exact Function.update_same _ _ _
      · show (w, max (max_freq_of processed w) fr) ∈ [(w, fr)]
        rw [hmax]
        exact List.mem_singleton.mpr rfl

/- Case 3 of one add_delete step: the key is absent and the table is full,
so the add is dropped and the dictionary is unchanged. -/
theorem DTMid_step_drop {h : List Char → ℕ} {dict : symspell_dict_t}
    {processed : List (List Char × ℕ)} {w : List Char} {fr : ℕ}
    {done : List (List Char)}
    (hmid : DTMid h dict processed w fr done) (ds0 : List Char)
    (hnk : dt_no_key dict ds0) (hfl : dt_full dict) :
    DTMid h (add_delete h dict ds0 w fr) processed w fr (done ++ [ds0]) := by
  have hall : ∀ j, ∃ e', dict.table (dt_slot dict.table_size (h ds0) j) = some e' ∧
      e'.delete_str ≠ ds0 := by
    intro j
    have hlt := dt_slot_lt dict.table_size (h ds0) j hmid.tsize_pos
    obtain ⟨e', he'⟩ := Option.ne_none_iff_exists'.mp (hfl _ hlt)
    exact ⟨e', he', hnk _ e' he'⟩
  have hstep : add_delete h dict ds0 w fr = dict := by
    rw [add_delete]
    exact add_delete_aux_drop dict ds0 w fr (h ds0) hall dict.table_size 0
  rw [hstep]
  refine ⟨hmid.tsize_pos, hmid.reach, hmid.pairs_nodup, ?_, ?_, ?_, ?_⟩
  · intro pos e he p hp hpw hdone'
    rcases List.mem_append.mp hdone' with hdone | hds0eq
    · exact hmid.upd pos e he p hp hpw hdone
    · rw [List.mem_singleton] at hds0eq
      exact absurd hds0eq (hnk pos e he)
  · intro pos e he p hp hguard
    refine hmid.old pos e he p hp ?_
    intro hc
    exact hguard ⟨hc.1, List.mem_append_left _ hc.2⟩
  · intro q hq ds hds
    by_cases hspecial : str_tolower q.1 = w ∧ ds = ds0
    · rw [if_pos ⟨hspecial.1, by
        rw [hspecial.2]
        exact List.mem_append_right _ (List.mem_singleton.mpr rfl)⟩]
      right
      refine ⟨?_, hfl⟩
      rw [hspecial.2]
      exact hnk
    · have hcond : (str_tolower q.1 = w ∧ ds ∈ done ++ [ds0]) ↔
          (str_tolower q.1 = w ∧ ds ∈ done) := by
        constructor
        · rintro ⟨h1, h2⟩
          rcases List.mem_append.mp h2 with h2 | h2
          · exact ⟨h1, h2⟩
          · rw [List.mem_singleton] at h2
            exact absurd ⟨h1, h2⟩ hspecial
        · rintro ⟨h1, h2⟩
          exact ⟨h1, List.mem_append_left _ h2⟩
      rw [if_congr hcond rfl rfl]
      exact hmid.covered_old q hq ds hds
  · intro ds hds'
    rcases List.mem_append.mp hds' with hdsdone | hdseq
    · exact hmid.covered_new ds hdsdone
    · rw [List.mem_singleton] at hdseq
      right
      refine ⟨?_, hfl⟩
      rw [hdseq]
      exact hnk

/- One full add_delete step preserves the mid-fold invariant: dispatch on the
probe outcome (entry found / empty slot reached / table full). -/
theorem DTMid_step {h : List Char → ℕ} {dict : symspell_dict_t}
    {processed : List (List Char × ℕ)} {w : List Char} {fr : ℕ}
    {done : List (List Char)}
    (hmid : DTMid h dict processed w fr done) (ds0 : List Char)
    (hds0 : ds0 ∈ dels_of dict w) (hnotdone : ds0 ∉ done) :
    DTMid h (add_delete h dict ds0 w fr) processed w fr (done ++ [ds0]) := by
  by_cases hkey : ∃ pos e, dict.table pos = some e ∧ e.delete_str = ds0
  · obtain ⟨pos0, e0, hpos0, hkey0⟩ := hkey
    exact DTMid_step_found hmid ds0 hds0 hnotdone pos0 e0 hpos0 hkey0
  · have hnk : dt_no_key dict ds0 := fun pos e he hk => hkey ⟨pos, e, he, hk⟩
    by_cases hemp : ∃ j < dict.table_size,
        dict.table (dt_slot dict.table_size (h ds0) j) = none
    · obtain ⟨j1, hj1lt, hj1⟩ := hemp
      haveI : DecidablePred (fun j => dict.table (dt_slot dict.table_size (h ds0) j) = none) :=
        fun j => decidable_of_iff _ Option.isNone_iff_eq_none
      have hex : ∃ j, dict.table (dt_slot dict.table_size (h ds0) j) = none := ⟨j1, hj1⟩
      have hjtlt : Nat.find hex < dict.table_size :=
        lt_of_le_of_lt (Nat.find_min' hex hj1) hj1lt
      exact DTMid_step_create hmid ds0 hds0 hnk (Nat.find hex) hjtlt (Nat.find_spec hex)
        (fun j' hj' => Nat.find_min hex hj')
    · push_neg at hemp
      have hfl : dt_full dict := by
        intro pos hpos
        obtain ⟨j, hjlt, hj⟩ := dt_slot_surj dict.table_size (h ds0) hmid.tsize_pos pos hpos
        rw [← hj]
        exact hemp j hjlt
      exact DTMid_step_drop hmid ds0 hnk hfl

/- add_delete only touches the table and entry_count, so the delete set of a
word is unchanged. -/
theorem add_delete_dels (h : List Char → ℕ) (dict : symspell_dict_t)
    (ds w : List Char) (freq : ℕ) :
    dels_of (add_delete h dict ds w freq) = dels_of dict := by
  obtain ⟨_, _, hed, hpl, hcap, _⟩ := add_delete_preserves h dict ds w freq
  funext x
  unfold dels_of
  rw [hed, hpl, hcap]

/- Folding add_delete over a duplicate-free tail of delete variants extends
the done set by exactly that tail. -/
theorem DTMid_fold {h : List Char → ℕ} {processed : List (List Char × ℕ)}
    {w : List Char} {fr : ℕ} :
    ∀ (rest done : List (List Char)) (dict : symspell_dict_t),
      (done ++ rest).Nodup →
      (∀ ds ∈ rest, ds ∈ dels_of dict w) →
      DTMid h dict processed w fr done →
      DTMid h (rest.foldl (fun d ds => add_delete h d ds w fr) dict) processed w fr
        (done ++ rest) := by
  intro rest
  induction rest with
  | nil =>
    intro done dict _ _ hmid
    simpa using hmid
  | cons ds0 rest' ih =>
    intro done dict hnd hmem hmid
    have hds0 : ds0 ∈ dels_of dict w := hmem ds0 (List.mem_cons_self _ _)
    have hnotdone : ds0 ∉ done := by
      intro hc
      exact (List.disjoint_of_nodup_append hnd) hc (List.mem_cons_self _ _)
    have hstep := DTMid_step hmid ds0 hds0 hnotdone
    have hdels := add_delete_dels h dict ds0 w fr
    have hnd' : ((done ++ [ds0]) ++ rest').Nodup := by
      simpa using hnd
    have hmem' : ∀ ds ∈ rest', ds ∈ dels_of (add_delete h dict ds0 w fr) w := by
      intro ds hds
      rw [hdels]
      exact hmem ds (List.mem_cons_of_mem _ hds)
    have hres := ih (done ++ [ds0]) (add_delete h dict ds0 w fr) hnd' hmem' hstep
    rw [List.foldl_cons]
    have heq : done ++ ds0 :: rest' = (done ++ [ds0]) ++ rest' := by simp
    rw [heq]
    exact hres

/- Ingesting one (term, freq) pair preserves the delete-index invariant,
appending the pair to the processed list. -/
theorem DTInv_ingest {h : List Char → ℕ} {dict : symspell_dict_t}
    {processed : List (List Char × ℕ)} (hinv : DTInv h dict processed)
    (term : List Char) (freq : ℕ) :
    DTInv h (ingest_pair h dict term freq) (processed ++ [(term, freq)]) := by
  have hinv1 : DTInv h
      { dict with exact_table :=
          (add_exact_match dict.exact_table (h (str_tolower term)) freq).1 }
      processed :=
    @DTInv_transfer h dict
      ({ dict with exact_table :=
          (add_exact_match dict.exact_table (h (str_tolower term)) freq).1 })
      processed rfl rfl rfl rfl rfl hinv
  have hmid0 := DTMid_enter hinv1 (str_tolower term) freq
  have hnd : (dels_of
      ({ dict with exact_table :=
          (add_exact_match dict.exact_table (h (str_tolower term)) freq).1 })
      (str_tolower term)).Nodup :=
    generate_all_deletes_nodup (str_tolower term) _ _ _
  have hfold := DTMid_fold
    (dels_of ({ dict with exact_table :=
        (add_exact_match dict.exact_table (h (str_tolower term)) freq).1 })
      (str_tolower term)) []
    ({ dict with exact_table :=
        (add_exact_match dict.exact_table (h (str_tolower term)) freq).1 })
    (by simpa using hnd) (fun ds hds => hds) hmid0
  have hdels2 : dels_of (generate_deletes h
      ({ dict with exact_table :=
          (add_exact_match dict.exact_table (h (str_tolower term)) freq).1 })
      (str_tolower term) freq) =
      dels_of ({ dict with exact_table :=
          (add_exact_match dict.exact_table (h (str_tolower term)) freq).1 }) := by
    obtain ⟨_, _, hed, hpl, hcap, _⟩ := generate_deletes_preserves h
      ({ dict with exact_table :=
          (add_exact_match dict.exact_table (h (str_tolower term)) freq).1 })
      (str_tolower term) freq
    funext x
    unfold dels_of
    rw [hed, hpl, hcap]
  have hmid2 : DTMid h (generate_deletes h
      ({ dict with exact_table :=
          (add_exact_match dict.exact_table (h (str_tolower term)) freq).1 })
      (str_tolower term) freq) processed (str_tolower term) freq
      (dels_of (generate_deletes h
        ({ dict with exact_table :=
            (add_exact_match dict.exact_table (h (str_tolower term)) freq).1 })
        (str_tolower term) freq) (str_tolower term)) := by
    rw [hdels2]
    simpa using hfold
  have hexit := DTMid_exit term rfl hmid2
  exact @DTInv_transfer h
    (generate_deletes h
      ({ dict with exact_table :=
          (add_exact_match dict.exact_table (h (str_tolower term)) freq).1 })
      (str_tolower term) freq)
    (ingest_pair h dict term freq)
    (processed ++ [(term, freq)]) rfl rfl rfl rfl rfl hexit

/- The invariant over a whole ingest pass. -/
theorem DTInv_ingest_fold {h : List Char → ℕ} :
    ∀ (pairs : List (List Char × ℕ)) (dict : symspell_dict_t)
      (processed : List (List Char × ℕ)),
      DTInv h dict processed →
      DTInv h (ingest_fold h dict pairs) (processed ++ pairs) := by
  intro pairs
  induction pairs with
  | nil =>
    intro dict processed hinv
    simpa [ingest_fold] using hinv
  | cons p rest ih =>
    intro dict processed hinv
    have h1 := DTInv_ingest hinv p.1 p.2
    have h2 := ih (ingest_pair h dict p.1 p.2) (processed ++ [p])
      (by simpa using h1)
    simp only [ingest_fold, List.foldl_cons]
    have heq : processed ++ p :: rest = (processed ++ [p]) ++ rest := by simp
    rw [heq]
    exact h2

/- The delete-index invariant holds after a full load pass: the end-of-load
probability sweep does not touch the delete table. -/
theorem load_DTInv (h : List Char → ℕ) {ed pl : ℤ} {d0 : symspell_dict_t}
    (lines : List (List Char)) (ti ci : ℕ)
    (hc : symspell_create ed pl = some d0) :
    DTInv h (symspell_load_dictionary h d0 lines ti ci)
      (admitted_pairs lines ti ci) := by
  have h0 := DTInv_ingest_fold (admitted_pairs lines ti ci) d0 [] (DTInv_create h hc)
  have hfold : (load_fold h d0 lines ti ci).1 =
      ingest_fold h d0 (admitted_pairs lines ti ci) := by
    rw [load_fold, load_fold_fst]
  refine @DTInv_transfer h (ingest_fold h d0 (admitted_pairs lines ti ci))
    (symspell_load_dictionary h d0 lines ti ci) (admitted_pairs lines ti ci)
    ?_ ?_ ?_ ?_ ?_ (by simpa using h0)
  all_goals
    unfold symspell_load_dictionary
    dsimp only
    rw [hfold]

/-- C7: for a load pass over a line sequence whose admitted (word, freq) pairs
may repeat a word, the stored frequency is the maximum observed across all
pairs for that (lowercased) word — in the exact-match table for every admitted
word (under the external hash being nonzero and collision-free on the admitted
words, with the table not full), and, with no hypotheses beyond the load
itself, in every delete-index entry that lists the word: add_exact_match and
add_to_entry both coalesce duplicates keeping the maximum. -/
theorem c7_duplicate_word_keeps_max_frequency (h : List Char → ℕ)
    {ed pl : ℤ} {d0 : symspell_dict_t} (hc : symspell_create ed pl = some d0)
    (lines : List (List Char)) (ti ci : ℕ)
    (hz : ∀ p ∈ admitted_pairs lines ti ci, h (str_tolower p.1) ≠ 0)
    (hroom : (admitted_pairs lines ti ci).length < EXACT_MATCH_TABLE_SIZE)
    (hinj : ∀ p ∈ admitted_pairs lines ti ci, ∀ q ∈ admitted_pairs lines ti ci,
      h (str_tolower p.1) = h (str_tolower q.1) → str_tolower p.1 = str_tolower q.1) :
    (∀ q ∈ admitted_pairs lines ti ci, ∃ pos,
      em_find_pos (symspell_load_dictionary h d0 lines ti ci).exact_table
          (h (str_tolower q.1)) = some pos ∧
      (symspell_load_dictionary h d0 lines ti ci).exact_table.frequencies pos =
        max_freq_of (admitted_pairs lines ti ci) (str_tolower q.1)) ∧
    (∀ pos e, (symspell_load_dictionary h d0 lines ti ci).table pos = some e →
      ∀ p ∈ e.pairs, p.2 = max_freq_of (admitted_pairs lines ti ci) p.1) := by
  constructor
  · intro q hq
    have hem := load_EMInv h lines ti ci hc hz hroom
    have hget : alist_get (h (str_tolower q.1))
        (build_freq_map h (admitted_pairs lines ti ci)) =
        some (max_freq_of (admitted_pairs lines ti ci) (str_tolower q.1)) := by
      rw [build_freq_map_get h (str_tolower q.1) (admitted_pairs lines ti ci)
        (fun p hp hne hh => hne (hinj p hp q hq hh))]
      rw [if_pos ⟨q, hq, rfl⟩]
    have hmem := alist_get_mem _ _ _ hget
    obtain ⟨pos, hfind, _, _, hfreq⟩ := em_find_pos_found hem hmem
    exact ⟨pos, hfind, hfreq⟩
  · intro pos e he p hp
    have hdt := load_DTInv h lines ti ci hc
    exact (hdt.entries_wf pos e he p hp).2.1

theorem c7_witness :
    (∀ q ∈ admitted_pairs ["ab 3".data, "ab 9".data, "ab 5".data] 0 1, ∃ pos,
      em_find_pos (symspell_load_dictionary demo_hash demo_dict
          ["ab 3".data, "ab 9".data, "ab 5".data] 0 1).exact_table
          (demo_hash (str_tolower q.1)) = some pos ∧
      (symspell_load_dictionary demo_hash demo_dict
          ["ab 3".data, "ab 9".data, "ab 5".data] 0 1).exact_table.frequencies pos =
        max_freq_of (admitted_pairs ["ab 3".data, "ab 9".data, "ab 5".data] 0 1)
          (str_tolower q.1)) ∧
    (∀ pos e, (symspell_load_dictionary demo_hash demo_dict
        ["ab 3".data, "ab 9".data, "ab 5".data] 0 1).table pos = some e →
      ∀ p ∈ e.pairs, p.2 = max_freq_of
        (admitted_pairs ["ab 3".data, "ab 9".data, "ab 5".data] 0 1) p.1) :=
  c7_duplicate_word_keeps_max_frequency demo_hash
    (show symspell_create 2 7 = some demo_dict from rfl)
    ["ab 3".data, "ab 9".data, "ab 5".data] 0 1 (by decide) (by decide) (by decide)

end SymSpell
